import Mathlib

/-!
Verification development for the CliChess MCTS engine.

The repository contains three generations of the engine:
* `src/chess_player.rs` : a flat node list (`Node`, `StoneFish` driver);
* `src/mcts.rs`         : a recursive tree (`MCTree`) with perspective-relative
  statistics and an explicit `invert` step on every edge;
* `src/stonefish.rs`    : a recursive tree (`TreeNode`) with color-absolute
  statistics (`PlayoutResult` counts white wins, black wins and draws) and a
  driver (`StoneFish`) that transplants the root between turns.

The rules engine (the external `pleco` crate) is modelled abstractly as a
`Rules` record of the operations the code calls.  Floating point values are
modelled over an arbitrary linear ordered field `F`; the transcendental
functions `ln` and `sqrt` of `f32` are passed as function parameters and
instantiated with `Real.log` and `Real.sqrt` where a theorem needs their
actual values.  Randomness (the `rand` crate) and the results reported by
rollout worker threads are modelled as oracle tapes (`Nat → Nat`,
`Nat → PlayEnd`, ...) consumed at an explicit cursor.  Rust `panic!` and
`unwrap` failures are modelled by distinguished error values, and the
possibly deep recursions are driven by an explicit fuel argument.
-/

/-- The `pleco::Player` type: the side to move. -/
inductive Player where
  | white
  | black
deriving DecidableEq

/-- The opposite side. -/
def Player.other : Player → Player
  | .white => .black
  | .black => .white

/-- The `pleco::PieceType` type, used by `stonefish.rs` to grade captures. -/
inductive PieceType where
  | none
  | p
  | n
  | b
  | r
  | q
  | k
  | all
deriving DecidableEq

/-- The external rules engine (the `pleco` crate): exactly the operations the
repository calls on a `Board`, over abstract board and move types. -/
structure Rules (B M : Type) where
  generate_moves : B → List M
  apply_move : B → M → B
  checkmate : B → Bool
  stalemate : B → Bool
  rule50 : B → Nat
  turn : B → Player
  last_move : B → Option M
  captured_piece : B → M → PieceType

/-- The comparison pattern used throughout the repository on `f32` values:
`Less` when a < b, `Greater` when a > b, `Equal` otherwise. -/
def fcmp {F : Type} [LinearOrder F] (a b : F) : Ordering :=
  if a < b then .lt else if b < a then .gt else .eq

/-- Rust `Iterator::max_by` on a non-empty list, with the index of the chosen
element tracked so that in-place mutation of the chosen element (`iter_mut`)
can be modelled.  Rust folds with the accumulator kept only when the
comparator answers `Greater`, so among equally maximal elements the
last-encountered one wins exactly when the comparator reports `Equal` on
ties. -/
def rustMaxFold {α : Type} (cmp : α → α → Ordering) :
    List α → Nat → Nat × α → Nat × α
  | [], _, acc => acc
  | y :: ys, j, acc =>
      rustMaxFold cmp ys (j + 1) (if cmp acc.2 y = .gt then acc else (j, y))

/-- Rust `Iterator::max_by`: `none` on an empty list, otherwise the chosen
element together with its index. -/
def rustMaxByIdx {α : Type} (cmp : α → α → Ordering) : List α → Option (Nat × α)
  | [] => none
  | x :: xs => some (rustMaxFold cmp xs 1 (0, x))

/-- An `f32` division: a zero divisor produces a non-finite value (NaN or an
infinity), modelled as `none`. -/
def fdiv? {F : Type} [Field F] [DecidableEq F] (a b : F) : Option F :=
  if b = 0 then none else some (a / b)

namespace Mcts

/-- The `PARALLEL_SIMULATIONS` from `mcts.rs`. -/
def PARALLEL_SIMULATIONS : Nat := 5

/-- The `PARALLEL_PLAYOUTS` from `mcts.rs`. -/
def PARALLEL_PLAYOUTS : Nat := 5

/-- The `SimResult` from `mcts.rs`: wins and playouts of one simulation step,
counted from the perspective of the player to move at the node. -/
structure SimResult where
  wins : Nat
  playouts : Nat
deriving DecidableEq

/-- The `SimResult::invert`: the losses become the wins, the playout count is
unchanged. -/
def SimResult.invert (r : SimResult) : SimResult :=
  { wins := r.playouts - r.wins, playouts := r.playouts }

/-- The `impl Add for SimResult`: componentwise addition. -/
def SimResult.add (a b : SimResult) : SimResult :=
  { wins := a.wins + b.wins, playouts := a.playouts + b.playouts }

/-- The `PlayEnd` from `mcts.rs`: the end of a game, a win or a loss.  There is
no draw constructor. -/
inductive PlayEnd where
  | win
  | loss
deriving DecidableEq

/-- The `PlayResult` from `mcts.rs`: either the game ended, or there are moves
left to play. -/
inductive PlayResult (M : Type) where
  | ended (e : PlayEnd)
  | moves (ms : List M)

/-- The `PlayResult::get_draw_result`: a draw is converted into a win with 50
percent probability; the boolean models the coin `rng.gen_range(0, 2) == 0`. -/
def get_draw_result (coin : Bool) : PlayEnd :=
  if coin then .win else .loss

/-- The `PlayResult::get_result`: classify a board for `player`.  The 50-move
rule is checked first, then positions without moves are split into checkmate
(a loss for the side to move) and everything else (a draw, converted into a
random win or loss by `get_draw_result`). -/
def get_result {B M : Type} (R : Rules B M) (board : B) (player : Player)
    (coin : Bool) : PlayResult M :=
  let ms := R.generate_moves board
  if 50 ≤ R.rule50 board then .ended (get_draw_result coin)
  else if ms.length = 0 then
    if R.checkmate board then
      if player = R.turn board then .ended .loss else .ended .win
    else .ended (get_draw_result coin)
  else .moves ms

/-- The `MCTree` from `mcts.rs`: a state, the win and playout counters and the
list of move edges (`MCTreeMove` is the pair of the move and the child). -/
inductive MCTree (B M : Type) : Type where
  | mk (state : B) (wins : Nat) (playouts : Nat)
      (children : List (M × MCTree B M))

variable {B M : Type} {F : Type}

/-- The stored state. -/
def MCTree.state : MCTree B M → B
  | .mk s _ _ _ => s

/-- The stored win counter. -/
def MCTree.wins : MCTree B M → Nat
  | .mk _ w _ _ => w

/-- The stored playout counter. -/
def MCTree.playouts : MCTree B M → Nat
  | .mk _ _ p _ => p

/-- The stored move edges. -/
def MCTree.children : MCTree B M → List (M × MCTree B M)
  | .mk _ _ _ cs => cs

/-- The `MCTree::new`: a fresh node with zero statistics and no children. -/
def MCTree.new (state : B) : MCTree B M := .mk state 0 0 []

/-- The `MCTree::player`: the side to move at the stored state. -/
def MCTree.player (R : Rules B M) (t : MCTree B M) : Player := R.turn t.state

/-- The `MCTree::is_leaf`: no children exist yet. -/
def MCTree.is_leaf (t : MCTree B M) : Prop := t.children.length = 0

instance (t : MCTree B M) : Decidable t.is_leaf := by
  unfold MCTree.is_leaf; infer_instance

/-- The `MCTree::update`: add the wins and playouts of a result to the node. -/
def MCTree.update (t : MCTree B M) (r : SimResult) : MCTree B M :=
  .mk t.state (t.wins + r.wins) (t.playouts + r.playouts) t.children

/-- Replace the child list (models pushing the generated children during
`expand`). -/
def MCTree.withChildren (t : MCTree B M) (cs : List (M × MCTree B M)) :
    MCTree B M :=
  .mk t.state t.wins t.playouts cs

/-- Replace the child at an index (models mutation through the `&mut`
reference returned by `max_select_mut`). -/
def MCTree.setChild (t : MCTree B M) (i : Nat) (c : M × MCTree B M) :
    MCTree B M :=
  .mk t.state t.wins t.playouts (t.children.set i c)

/-- The `MCTree::play_value`: `0.5` without playouts, otherwise the win rate
seen by the opponent, `1 - wins / playouts`. -/
def MCTree.play_value [LinearOrderedField F] (t : MCTree B M) : F :=
  if t.playouts = 0 then 1 / 2
  else 1 - (t.wins : F) / (t.playouts : F)

/-- The `MCTree::select_value`: the play value plus an exploration term; the term
is the sentinel `1.0` for an unexplored node and otherwise
`1.4142 * sqrt(ln(parent_playouts) / playouts)`. -/
def MCTree.select_value [LinearOrderedField F] (lnf sq : F → F) (t : MCTree B M)
    (parent_playouts : Nat) : F :=
  MCTree.play_value t +
    (if t.playouts = 0 then 1
     else (14142 / 10000 : F) * sq (lnf (parent_playouts : F) / (t.playouts : F)))

/-- The `MCTreeMove::cmp_play_value` as an `Ordering` on edges. -/
def cmp_play_value [LinearOrderedField F] (a c : M × MCTree B M) : Ordering :=
  fcmp (MCTree.play_value a.2 : F) (MCTree.play_value c.2 : F)

/-- The `MCTreeMove::cmp_select_value` as an `Ordering` on edges. -/
def cmp_select_value [LinearOrderedField F] (lnf sq : F → F)
    (parent_playouts : Nat) (a c : M × MCTree B M) : Ordering :=
  fcmp (MCTree.select_value lnf sq a.2 parent_playouts : F)
    (MCTree.select_value lnf sq c.2 parent_playouts)

/-- The `MCTreeMove::max_play` (index-tracking form). -/
def max_play_idx [LinearOrderedField F] (cs : List (M × MCTree B M)) :
    Option (Nat × (M × MCTree B M)) :=
  rustMaxByIdx (cmp_play_value (F := F)) cs

/-- The `MCTreeMove::max_select` and `max_select_mut` (index-tracking form). -/
def max_select_idx [LinearOrderedField F] (lnf sq : F → F)
    (cs : List (M × MCTree B M)) (parent_playouts : Nat) :
    Option (Nat × (M × MCTree B M)) :=
  rustMaxByIdx (cmp_select_value (F := F) lnf sq parent_playouts) cs

/-- The `MCTree::best_move`: the edge with the maximal play value, `None` when
there are no children. -/
def MCTree.best_move [LinearOrderedField F] (t : MCTree B M) :
    Option (M × MCTree B M) :=
  (max_play_idx (F := F) t.children).map (·.2)

/-- Outcome of running a modelled Rust computation: a value, a `panic!` or
`unwrap` failure (`stuck`), or exhaustion of the recursion fuel (`out`, an
artifact of the model, not of the code). -/
inductive Exec (α : Type) where
  | ok (a : α)
  | stuck
  | out

/-- The number of `PlayEnd.win` entries among the `n` tape cells starting at
cursor `k`: the wins aggregated by `simulate` from its worker threads. -/
def countWins (po : Nat → PlayEnd) (k : Nat) : Nat → Nat
  | 0 => 0
  | n + 1 => (if po (k + n) = .win then 1 else 0) + countWins po k n

/-- The `MCTree::simulate`: run `PARALLEL_PLAYOUTS` rollouts (their outcomes read
from the oracle tape `po`), aggregate the wins, fold the result into the node
and return it together with the advanced cursor. -/
def MCTree.simulate (po : Nat → PlayEnd) (t : MCTree B M) (k : Nat) :
    MCTree B M × SimResult × Nat :=
  let r : SimResult := ⟨countWins po k PARALLEL_PLAYOUTS, PARALLEL_PLAYOUTS⟩
  (t.update r, r, k + PARALLEL_PLAYOUTS)

/-- The simulation loop inside `MCTree::expand`: `n` times, pick a random
child index, run `simulate` on that child (mutating it in place), and add the
inverted child result to the accumulator.  `none` models the `gen_range`
panic on an empty child list. -/
def simLoop (po : Nat → PlayEnd) (rnd : Nat → Nat) :
    Nat → List (M × MCTree B M) → Nat → SimResult →
    Option (List (M × MCTree B M) × SimResult × Nat)
  | 0, cs, k, acc => some (cs, acc, k)
  | n + 1, cs, k, acc =>
    if h : cs.length = 0 then none
    else
      let i := rnd k % cs.length
      let c := cs.get ⟨i, Nat.mod_lt _ (Nat.pos_of_ne_zero h)⟩
      let s := c.2.simulate po (k + 1)
      simLoop po rnd n (cs.set i (c.1, s.1)) s.2.2 (acc.add s.2.1.invert)

/-- The `MCTree::expand`: classify the state; if moves remain, push one fresh
child per move and run `PARALLEL_SIMULATIONS` child simulations; otherwise
simulate the terminal node directly.  The coin passed to `get_result` is
irrelevant because `expand` discards the `End` payload. -/
def MCTree.expand (R : Rules B M) (rnd : Nat → Nat) (po : Nat → PlayEnd)
    (t : MCTree B M) (k : Nat) : Exec (MCTree B M × SimResult × Nat) :=
  match get_result R t.state (t.player R) true with
  | .moves ms =>
      let cs := t.children ++ ms.map (fun m => (m, MCTree.new (R.apply_move t.state m)))
      match simLoop po rnd PARALLEL_SIMULATIONS cs k ⟨0, 0⟩ with
      | some (cs2, result, k2) =>
          .ok ((t.withChildren cs2).update result, result, k2)
      | none => .stuck
  | .ended _ =>
      let s := t.simulate po k
      .ok s

/-- The `MCTree::select`: expand a leaf; otherwise descend into the child with
the maximal select value (computed against this node's own playout count),
invert the returned result, merge it into this node and hand it upward.
`stuck` models the `unwrap` panic on `max_select_mut`; the fuel only bounds
the recursion depth of the model. -/
def MCTree.select [LinearOrderedField F] (R : Rules B M) (lnf sq : F → F)
    (rnd : Nat → Nat) (po : Nat → PlayEnd) :
    Nat → MCTree B M → Nat → Exec (MCTree B M × SimResult × Nat)
  | 0, _, _ => .out
  | fuel + 1, t, k =>
    if t.is_leaf then t.expand R rnd po k
    else
      match max_select_idx (F := F) lnf sq t.children t.playouts with
      | none => .stuck
      | some (i, c) =>
        match MCTree.select R lnf sq rnd po fuel c.2 k with
        | .ok (c2, r, k2) =>
            .ok ((t.setChild i (c.1, c2)).update r.invert, r.invert, k2)
        | .stuck => .stuck
        | .out => .out

/-- The path taken by `select`: follow the maximal-select-value child until a
leaf is reached; `none` only on fuel exhaustion or a missing maximum. -/
def MCTree.descendLeaf [LinearOrderedField F] (lnf sq : F → F) :
    Nat → MCTree B M → Option (MCTree B M)
  | 0, _ => none
  | fuel + 1, t =>
    if t.is_leaf then some t
    else
      match max_select_idx (F := F) lnf sq t.children t.playouts with
      | none => none
      | some (_, c) => MCTree.descendLeaf lnf sq fuel c.2

/-- The statistics invariant of `mcts.rs` trees: at every node the recorded
wins never exceed the recorded playouts (`SimResult` has no draw counter, so
the draws of spec section 8 are identically zero here). -/
inductive MCTree.Inv : MCTree B M → Prop where
  | mk : ∀ (s : B) (w p : Nat) (cs : List (M × MCTree B M)),
      w ≤ p → (∀ c ∈ cs, MCTree.Inv c.2) → MCTree.Inv (.mk s w p cs)

end Mcts

namespace CP

/-- The `Playout` from `chess_player.rs`: the outcome of one rollout, relative to
a fixed player. -/
inductive Playout where
  | win
  | draw
  | loss
deriving DecidableEq

/-- The `Node` from `chess_player.rs`: a root child with separate win, loss and
draw counters. -/
structure Node (B M : Type) where
  board : B
  mv : M
  wins : Nat
  losses : Nat
  draws : Nat

variable {B M : Type} {F : Type}

/-- The `Node::new`: apply the move to the source board, zero statistics. -/
def Node.new (R : Rules B M) (src_board : B) (mv : M) : Node B M :=
  { board := R.apply_move src_board mv, mv := mv, wins := 0, losses := 0, draws := 0 }

/-- The `Node::update`: bump the counter matching the playout outcome. -/
def Node.update (n : Node B M) : Playout → Node B M
  | .win => { n with wins := n.wins + 1 }
  | .loss => { n with losses := n.losses + 1 }
  | .draw => { n with draws := n.draws + 1 }

/-- The `Node::playouts`: wins plus losses plus draws. -/
def Node.playouts (n : Node B M) : Nat := n.wins + n.losses + n.draws

/-- The `Node::value`: wins plus half the draws. -/
def Node.value [LinearOrderedField F] (n : Node B M) : F :=
  (n.wins : F) + (n.draws : F) * (1 / 2)

/-- The `Node::play_value`: `0.5` without playouts, otherwise `value / playouts`,
which is `(wins + 0.5 * draws) / playouts`. -/
def Node.play_value [LinearOrderedField F] (n : Node B M) : F :=
  if n.playouts = 0 then 1 / 2 else (Node.value n : F) / (n.playouts : F)

/-- The `Node::mcts_value`: the play value plus the sentinel `1.0` for an
unexplored node, otherwise `1.4142 * sqrt(ln(total_playouts) / playouts)`. -/
def Node.mcts_value [LinearOrderedField F] (lnf sq : F → F) (n : Node B M)
    (total_playouts : Nat) : F :=
  Node.play_value n +
    (if n.playouts = 0 then 1
     else (14142 / 10000 : F) * sq (lnf (total_playouts : F) / (n.playouts : F)))

/-- The `StoneFish::playout` from `chess_player.rs`: loop until a terminal
position, choosing uniformly random moves (read from the tape `rnd` at cursor
`k`).  The 50-move rule gives a draw, an empty move list gives a stalemate
draw, a checkmate loss for `player` when it is to move (a win otherwise), or
a draw.  `none` only on fuel exhaustion. -/
def playout (R : Rules B M) (rnd : Nat → Nat) (player : Player) :
    Nat → B → Nat → Option Playout
  | 0, _, _ => none
  | fuel + 1, board, k =>
    if 50 ≤ R.rule50 board then some .draw
    else
      let moves := R.generate_moves board
      if h : moves.length = 0 then
        if R.stalemate board then some .draw
        else if R.checkmate board then
          if R.turn board = player then some .loss else some .win
        else some .draw
      else
        let mv := moves.get ⟨rnd k % moves.length, Nat.mod_lt _ (Nat.pos_of_ne_zero h)⟩
        playout R rnd player fuel (R.apply_move board mv) (k + 1)

end CP

namespace SF

/-- The `PlayoutResult` from `stonefish.rs`: color-absolute counters for white
wins, black wins and draws. -/
structure PlayoutResult where
  white_wins : Nat
  black_wins : Nat
  draws : Nat
deriving DecidableEq

/-- The `PlayoutResult::new`. -/
def PlayoutResult.new (white_wins black_wins draws : Nat) : PlayoutResult :=
  ⟨white_wins, black_wins, draws⟩

/-- The `PlayoutResult::new_empty`. -/
def PlayoutResult.new_empty : PlayoutResult := ⟨0, 0, 0⟩

/-- The `PlayoutResult::count`: the total number of playouts recorded. -/
def PlayoutResult.count (r : PlayoutResult) : Nat :=
  r.white_wins + r.black_wins + r.draws

/-- The `impl Add for PlayoutResult`: componentwise addition. -/
def PlayoutResult.add (a c : PlayoutResult) : PlayoutResult :=
  ⟨a.white_wins + c.white_wins, a.black_wins + c.black_wins, a.draws + c.draws⟩

/-- The `TreeNode` from `stonefish.rs`: a board, the playout results and the move
edges (`TreeMove` is the pair of the move and the resulting node). -/
inductive TreeNode (B M : Type) : Type where
  | mk (board : B) (playout_result : PlayoutResult)
      (moves : List (M × TreeNode B M))

variable {B M : Type} {F : Type}

/-- The stored board. -/
def TreeNode.board : TreeNode B M → B
  | .mk b _ _ => b

/-- The stored playout results. -/
def TreeNode.playout_result : TreeNode B M → PlayoutResult
  | .mk _ r _ => r

/-- The stored move edges. -/
def TreeNode.moves : TreeNode B M → List (M × TreeNode B M)
  | .mk _ _ ms => ms

/-- The `TreeNode::new`: empty statistics, no moves. -/
def TreeNode.new (board : B) : TreeNode B M :=
  .mk board PlayoutResult.new_empty []

/-- The `TreeNode::is_leaf`: no playouts recorded yet, or the board is a
checkmate. -/
def TreeNode.is_leaf (R : Rules B M) (t : TreeNode B M) : Prop :=
  t.playout_result.count = 0 ∨ R.checkmate t.board = true

instance (R : Rules B M) (t : TreeNode B M) : Decidable (t.is_leaf R) := by
  unfold TreeNode.is_leaf; infer_instance

/-- The `TreeNode::turn`. -/
def TreeNode.turn (R : Rules B M) (t : TreeNode B M) : Player := R.turn t.board

/-- The `TreeNode::playouts`. -/
def TreeNode.playouts (t : TreeNode B M) : Nat := t.playout_result.count

/-- The `TreeNode::play_value`: the side-to-move win count plus half the draws,
divided by the playout count.  There is no zero-playout guard in the source:
with zero playouts the `f32` division `0.0 / 0.0` yields NaN, modelled as
`none` via `fdiv?`. -/
def TreeNode.play_value? (R : Rules B M) [LinearOrderedField F]
    (t : TreeNode B M) : Option F :=
  let wins : Nat :=
    match R.turn t.board with
    | .white => t.playout_result.white_wins
    | .black => t.playout_result.black_wins
  fdiv? ((wins : F) + (t.playout_result.draws : F) / 2)
    (t.playout_result.count : F)

/-- The `TreeNode::select_value`: exploitation plus
`1.41421356 * sqrt(ln(total_playouts) / playouts)`.  Neither term is guarded
against zero playouts, so both divisions are modelled with `fdiv?` and the
whole value is non-finite (`none`) when `playouts = 0`. -/
def TreeNode.select_value? (R : Rules B M) [LinearOrderedField F]
    (lnf sq : F → F) (t : TreeNode B M) (total_playouts : Nat) : Option F :=
  let wins : Nat :=
    match R.turn t.board with
    | .white => t.playout_result.white_wins
    | .black => t.playout_result.black_wins
  match fdiv? ((wins : F) + (t.playout_result.draws : F) / 2)
      (t.playout_result.count : F),
    fdiv? (lnf (total_playouts : F)) (t.playout_result.count : F) with
  | some exploitation, some x =>
      some (exploitation + (141421356 / 100000000 : F) * sq x)
  | _, _ => none

/-- The `f32` strict comparison used by `TreeNode::best_move`: every
comparison against a non-finite value (NaN) is false. -/
def optLt [LinearOrder F] : Option F → Option F → Bool
  | some a, some b => decide (a < b)
  | _, _ => false

/-- The `TreeNode::best_move` (index-tracking form): the move with the maximal
play value under the comparator that answers `Less` exactly on a strict
comparison and `Greater` otherwise; `none` models the `unwrap` panic when the
node has no moves. -/
def TreeNode.best_move? (R : Rules B M) [LinearOrderedField F]
    (t : TreeNode B M) : Option (M × TreeNode B M) :=
  (rustMaxByIdx
    (fun a c =>
      if optLt (TreeNode.play_value? R a.2 : Option F)
          (TreeNode.play_value? R c.2) then .lt else .gt)
    t.moves).map (·.2)

/-- The `TreeNode::expand`: one edge per legal move, each child wrapping the
board after the move with empty statistics (precondition in the source:
`assert!(self.is_leaf())`). -/
def TreeNode.expand (R : Rules B M) (t : TreeNode B M) : TreeNode B M :=
  .mk t.board t.playout_result
    ((R.generate_moves t.board).map
      (fun m => (m, TreeNode.new (R.apply_move t.board m))))

/-- The material value of a capture, from `TreeNode::playout_value`. -/
def captureValue : PieceType → Nat
  | .none => 0
  | .p => 1
  | .n => 3
  | .b => 3
  | .r => 5
  | .q => 9
  | .k => 100
  | .all => 0

/-- The `TreeNode::playout_value`: the capture value plus random noise
`gen_range(0, 40)` read from the tape at cursor `k`. -/
def TreeNode.playout_value (R : Rules B M) (rnd : Nat → Nat) (k : Nat)
    (board : B) (mv : M) : Nat :=
  captureValue (R.captured_piece board mv) + rnd k % 40

/-- The arg-max loop in `TreeNode::playout`: the best move is replaced only
on a strictly greater value, so the first-encountered maximum survives. -/
def bestPlayoutMove (R : Rules B M) (rnd : Nat → Nat) (board : B) :
    List M → Nat → M × Nat → M
  | [], _, best => best.1
  | m :: ms, k, best =>
      let v := TreeNode.playout_value R rnd k board m
      if best.2 < v then bestPlayoutMove R rnd board ms (k + 1) (m, v)
      else bestPlayoutMove R rnd board ms (k + 1) best

/-- The `TreeNode::playout`: loop until a terminal position.  Checkmate is a win
for the side not to move, the 50-move rule and stalemate are draws; otherwise
play the heuristically best move.  `none` on fuel exhaustion (or on the
`assert!(moves.len() > 0)` failure, which chess rules make unreachable). -/
def TreeNode.playout (R : Rules B M) (rnd : Nat → Nat) :
    Nat → B → Nat → Option PlayoutResult
  | 0, _, _ => none
  | fuel + 1, board, k =>
    if R.checkmate board then
      some (match R.turn board with
        | .white => PlayoutResult.new 0 1 0
        | .black => PlayoutResult.new 1 0 0)
    else if 50 ≤ R.rule50 board ∨ R.stalemate board = true then
      some (PlayoutResult.new 0 0 1)
    else
      let moves := R.generate_moves board
      if h : moves.length = 0 then none
      else
        let first := moves.get ⟨0, Nat.pos_of_ne_zero h⟩
        let v0 := TreeNode.playout_value R rnd k board first
        let best := bestPlayoutMove R rnd board (moves.drop 1) (k + 1) (first, v0)
        TreeNode.playout R rnd fuel (R.apply_move board best) (k + moves.length)

/-- The `StoneFish` from `stonefish.rs`: the engine side and the tracked root. -/
structure StoneFish (B M : Type) where
  player : Player
  root : TreeNode B M

/-- The pop loop of `StoneFish::apply_root_move`, applied to the reversed
move list: `Vec::pop` removes from the end, so the scan runs from the last
edge backwards. -/
def findPopLoop [DecidableEq M] (m : M) :
    List (M × TreeNode B M) → Option (TreeNode B M)
  | [] => none
  | c :: rest => if c.1 = m then some c.2 else findPopLoop m rest

/-- The `StoneFish::apply_root_move`: pop root edges until one labelled with the
given move is found; on success that edge's child becomes the whole root (all
sibling subtrees are discarded).  On failure every edge has been popped, the
root keeps its board and statistics with an empty move list, and `false` is
returned. -/
def StoneFish.apply_root_move [DecidableEq M] (s : StoneFish B M) (m : M) :
    Bool × StoneFish B M :=
  match findPopLoop m s.root.moves.reverse with
  | some node => (true, ⟨s.player, node⟩)
  | none => (false, ⟨s.player, .mk s.root.board s.root.playout_result []⟩)

/-- The two `panic!` calls in `StoneFish::update_root`, modelled as error
values: the board's last move matches no root edge, or the board differs
from the root but records no last move. -/
inductive RootSyncFailure where
  | lastMoveNotChild
  | noLastMove
deriving DecidableEq

/-- The `StoneFish::update_root`: a board equal to the root is accepted as is;
otherwise the board's last move is looked up among the root edges and the
matching child is transplanted to the root; in every remaining case the call
fails (`panic!` in the source, an explicit error here) and never falls back
to a fresh tree. -/
def StoneFish.update_root [DecidableEq B] [DecidableEq M] (R : Rules B M)
    (s : StoneFish B M) (board : B) :
    Except RootSyncFailure (StoneFish B M) :=
  if board = s.root.board then .ok s
  else
    match R.last_move board with
    | some last_mv =>
        let r := s.apply_root_move last_mv
        if r.1 then .ok r.2 else .error .lastMoveNotChild
    | none => .error .noLastMove

end SF

/-- A small concrete rules engine used to evaluate the embedded code on
explicit inputs: position `0` has the two moves `1` and `2` and applying a
move reaches the position of the same number; `1` is a checkmate, `2` a
stalemate, `3` a 50-move-rule position, and `4` a position whose recorded
last move `9` matches nothing. -/
def toy : Rules Nat Nat where
  generate_moves b := if b = 0 then [1, 2] else []
  apply_move _ m := m
  checkmate b := b == 1
  stalemate b := b == 2
  rule50 b := if b = 3 then 50 else 0
  turn b := if b = 0 then .white else .black
  last_move b :=
    if b = 1 then some 1 else if b = 2 then some 2
    else if b = 4 then some 9 else none
  captured_piece _ _ := .none

/-- The `fcmp` answers `Greater` exactly on a strict reverse comparison. -/
theorem fcmp_eq_gt_iff {F : Type} [LinearOrder F] (a b : F) :
    fcmp a b = .gt ↔ b < a := by
  unfold fcmp
  split_ifs with h1 h2
  · simp only [false_iff]; exact fun hba => absurd h1 (not_lt.mpr (le_of_lt hba))
  · simp only [true_iff]; exact h2
  · simp only [false_iff]; exact h2

/-- Behaviour of the Rust `max_by` fold for a comparator that answers
`Greater` exactly when the candidate is strictly smaller (`fcmp` on a value
function): the fold returns an element whose value dominates the accumulator
and every processed element, and every element strictly after the chosen
index is strictly smaller — equal maxima are resolved towards the last one. -/
theorem rustMaxFold_spec_last {α F : Type} [LinearOrder F] (v : α → F)
    (cmp : α → α → Ordering) (S : α → Prop)
    (hc : ∀ a c, S a → S c → (cmp a c = .gt ↔ v c < v a)) :
    ∀ (rest : List α) (j0 : Nat) (acc : Nat × α),
      S acc.2 → (∀ y ∈ rest, S y) → acc.1 < j0 →
      S (rustMaxFold cmp rest j0 acc).2 ∧
      ((rustMaxFold cmp rest j0 acc) = acc ∨
        ∃ d, rest.get? d = some (rustMaxFold cmp rest j0 acc).2 ∧
          (rustMaxFold cmp rest j0 acc).1 = j0 + d) ∧
      v acc.2 ≤ v (rustMaxFold cmp rest j0 acc).2 ∧
      (∀ y ∈ rest, v y ≤ v (rustMaxFold cmp rest j0 acc).2) ∧
      (∀ d y, rest.get? d = some y → (rustMaxFold cmp rest j0 acc).1 < j0 + d →
        v y < v (rustMaxFold cmp rest j0 acc).2) ∧
      acc.1 ≤ (rustMaxFold cmp rest j0 acc).1 := by
  intro rest
  induction rest with
  | nil =>
    intro j0 acc hS _ _
    refine ⟨hS, Or.inl rfl, le_refl _, ?_, ?_, le_refl _⟩
    · intro y hy; cases hy
    · intro d y hd _; simp at hd
  | cons y ys ih =>
    intro j0 acc hS hys hlt
    have hSy : S y := hys y (List.mem_cons_self _ _)
    have hSys : ∀ z ∈ ys, S z := fun z hz => hys z (List.mem_cons_of_mem _ hz)
    by_cases hk : cmp acc.2 y = .gt
    · have hstep : rustMaxFold cmp (y :: ys) j0 acc = rustMaxFold cmp ys (j0 + 1) acc := by
        simp [rustMaxFold, hk]
      have hy_lt : v y < v acc.2 := (hc _ _ hS hSy).mp hk
      obtain ⟨iS, imem, iacc, iall, ilast, ige⟩ :=
        ih (j0 + 1) acc hS hSys (lt_trans hlt (Nat.lt_succ_self _))
      rw [hstep]
      refine ⟨iS, ?_, iacc, ?_, ?_, ige⟩
      · rcases imem with h | ⟨d, hd, hi⟩
        · exact Or.inl h
        · exact Or.inr ⟨d + 1, by simpa using hd, by omega⟩
      · intro z hz
        rcases List.mem_cons.mp hz with rfl | hz
        · exact le_of_lt (lt_of_lt_of_le hy_lt iacc)
        · exact iall z hz
      · intro d z hd hlt2
        cases d with
        | zero =>
          simp at hd
          subst hd
          exact lt_of_lt_of_le hy_lt iacc
        | succ d' =>
          simp only [List.get?_cons_succ] at hd
          exact ilast d' z hd (by omega)
    · have hstep : rustMaxFold cmp (y :: ys) j0 acc =
          rustMaxFold cmp ys (j0 + 1) (j0, y) := by
        simp [rustMaxFold, hk]
      have hacc_le : v acc.2 ≤ v y := by
        by_contra hcon
        push_neg at hcon
        exact hk ((hc _ _ hS hSy).mpr hcon)
      obtain ⟨iS, imem, iacc, iall, ilast, ige⟩ :=
        ih (j0 + 1) (j0, y) hSy hSys (Nat.lt_succ_self _)
      have hge_j0 : j0 ≤ (rustMaxFold cmp ys (j0 + 1) (j0, y)).1 := ige
      rw [hstep]
      refine ⟨iS, ?_, le_trans hacc_le iacc, ?_, ?_, by omega⟩
      · rcases imem with h | ⟨d, hd, hi⟩
        · exact Or.inr ⟨0, by simp [h], by simp [h]⟩
        · exact Or.inr ⟨d + 1, by simpa using hd, by omega⟩
      · intro z hz
        rcases List.mem_cons.mp hz with rfl | hz
        · exact iacc
        · exact iall z hz
      · intro d z hd hlt2
        cases d with
        | zero => omega
        | succ d' =>
          simp only [List.get?_cons_succ] at hd
          exact ilast d' z hd (by omega)

/-- Behaviour of the Rust `max_by` fold for a comparator that answers
`Greater` unless the candidate is strictly greater (the strict comparators of
`stonefish.rs`): the fold returns a dominating element, and every element
strictly before the chosen index is strictly smaller — equal maxima are
resolved towards the first one. -/
theorem rustMaxFold_spec_first {α F : Type} [LinearOrder F] (v : α → F)
    (cmp : α → α → Ordering) (S : α → Prop)
    (hc : ∀ a c, S a → S c → (cmp a c = .gt ↔ v c ≤ v a)) :
    ∀ (rest : List α) (j0 : Nat) (acc : Nat × α),
      S acc.2 → (∀ y ∈ rest, S y) → acc.1 < j0 →
      S (rustMaxFold cmp rest j0 acc).2 ∧
      ((rustMaxFold cmp rest j0 acc) = acc ∨
        ∃ d, rest.get? d = some (rustMaxFold cmp rest j0 acc).2 ∧
          (rustMaxFold cmp rest j0 acc).1 = j0 + d) ∧
      v acc.2 ≤ v (rustMaxFold cmp rest j0 acc).2 ∧
      (∀ y ∈ rest, v y ≤ v (rustMaxFold cmp rest j0 acc).2) ∧
      (∀ d y, rest.get? d = some y → j0 + d < (rustMaxFold cmp rest j0 acc).1 →
        v y < v (rustMaxFold cmp rest j0 acc).2) ∧
      ((rustMaxFold cmp rest j0 acc).1 ≠ acc.1 →
        v acc.2 < v (rustMaxFold cmp rest j0 acc).2) ∧
      ((rustMaxFold cmp rest j0 acc).1 = acc.1 → rustMaxFold cmp rest j0 acc = acc) ∧
      acc.1 ≤ (rustMaxFold cmp rest j0 acc).1 := by
  intro rest
  induction rest with
  | nil =>
    intro j0 acc hS _ _
    refine ⟨hS, Or.inl rfl, le_refl _, ?_, ?_, ?_, fun _ => rfl, le_refl _⟩
    · intro y hy; cases hy
    · intro d y hd _; simp at hd
    · intro h; exact absurd rfl h
  | cons y ys ih =>
    intro j0 acc hS hys hlt
    have hSy : S y := hys y (List.mem_cons_self _ _)
    have hSys : ∀ z ∈ ys, S z := fun z hz => hys z (List.mem_cons_of_mem _ hz)
    by_cases hk : cmp acc.2 y = .gt
    · have hstep : rustMaxFold cmp (y :: ys) j0 acc = rustMaxFold cmp ys (j0 + 1) acc := by
        simp [rustMaxFold, hk]
      have hy_le : v y ≤ v acc.2 := (hc _ _ hS hSy).mp hk
      obtain ⟨iS, imem, iacc, iall, ifirst, istrict, ieq, ige⟩ :=
        ih (j0 + 1) acc hS hSys (lt_trans hlt (Nat.lt_succ_self _))
      rw [hstep]
      refine ⟨iS, ?_, iacc, ?_, ?_, istrict, ieq, ige⟩
      · rcases imem with h | ⟨d, hd, hi⟩
        · exact Or.inl h
        · exact Or.inr ⟨d + 1, by simpa using hd, by omega⟩
      · intro z hz
        rcases List.mem_cons.mp hz with rfl | hz
        · exact le_trans hy_le iacc
        · exact iall z hz
      · intro d z hd hlt2
        cases d with
        | zero =>
          simp at hd
          subst hd
          have hne : (rustMaxFold cmp ys (j0 + 1) acc).1 ≠ acc.1 := by omega
          exact lt_of_le_of_lt hy_le (istrict hne)
        | succ d' =>
          simp only [List.get?_cons_succ] at hd
          exact ifirst d' z hd (by omega)
    · have hstep : rustMaxFold cmp (y :: ys) j0 acc =
          rustMaxFold cmp ys (j0 + 1) (j0, y) := by
        simp [rustMaxFold, hk]
      have hacc_lt : v acc.2 < v y := by
        by_contra hcon
        push_neg at hcon
        exact hk ((hc _ _ hS hSy).mpr hcon)
      obtain ⟨iS, imem, iacc, iall, ifirst, istrict, ieq, ige⟩ :=
        ih (j0 + 1) (j0, y) hSy hSys (Nat.lt_succ_self _)
      have hge_j0 : j0 ≤ (rustMaxFold cmp ys (j0 + 1) (j0, y)).1 := ige
      rw [hstep]
      refine ⟨iS, ?_, le_of_lt (lt_of_lt_of_le hacc_lt iacc), ?_, ?_, ?_, ?_, by omega⟩
      · rcases imem with h | ⟨d, hd, hi⟩
        · exact Or.inr ⟨0, by simp [h], by simp [h]⟩
        · exact Or.inr ⟨d + 1, by simpa using hd, by omega⟩
      · intro z hz
        rcases List.mem_cons.mp hz with rfl | hz
        · exact iacc
        · exact iall z hz
      · intro d z hd hlt2
        cases d with
        | zero =>
          simp at hd
          subst hd
          by_cases hsame : (rustMaxFold cmp ys (j0 + 1) (j0, y)).1 = j0
          · have := ieq hsame
            rw [this]
            rw [this] at hlt2
            omega
          · exact istrict hsame
        | succ d' =>
          simp only [List.get?_cons_succ] at hd
          exact ifirst d' z hd (by omega)
      · intro _
        exact lt_of_lt_of_le hacc_lt iacc
      · intro h1
        omega

/-- The `rustMaxByIdx` on a non-empty list with an `fcmp`-style comparator: it
returns an element of the list together with its index, the element's value
dominates the whole list, and everything strictly after the chosen index is
strictly smaller (ties resolve to the last maximum). -/
theorem rustMaxByIdx_last_spec {α F : Type} [LinearOrder F] (v : α → F)
    (cmp : α → α → Ordering) (S : α → Prop)
    (hc : ∀ a c, S a → S c → (cmp a c = .gt ↔ v c < v a))
    (l : List α) (hl : l ≠ []) (hS : ∀ y ∈ l, S y) :
    ∃ i x, rustMaxByIdx cmp l = some (i, x) ∧ l.get? i = some x ∧ S x ∧
      (∀ y ∈ l, v y ≤ v x) ∧
      (∀ j y, l.get? j = some y → i < j → v y < v x) := by
  match l with
  | [] => exact absurd rfl hl
  | x :: xs =>
    have hSx : S x := hS x (List.mem_cons_self _ _)
    have hSxs : ∀ y ∈ xs, S y := fun y hy => hS y (List.mem_cons_of_mem _ hy)
    obtain ⟨rS, rmem, racc, rall, rlast, _⟩ :=
      rustMaxFold_spec_last v cmp S hc xs 1 (0, x) hSx hSxs Nat.zero_lt_one
    refine ⟨(rustMaxFold cmp xs 1 (0, x)).1, (rustMaxFold cmp xs 1 (0, x)).2,
      by simp [rustMaxByIdx], ?_, rS, ?_, ?_⟩
    · rcases rmem with h | ⟨d, hd, hi⟩
      · rw [h]
        rfl
      · rw [hi, Nat.add_comm]
        simpa using hd
    · intro y hy
      rcases List.mem_cons.mp hy with rfl | hy
      · exact racc
      · exact rall y hy
    · intro j y hj hlt
      cases j with
      | zero => omega
      | succ d =>
        simp only [List.get?_cons_succ] at hj
        exact rlast d y hj (by omega)

/-- The `rustMaxByIdx` on a non-empty list with a strict (`Less`-or-`Greater`)
comparator: it returns a dominating element and everything strictly before
the chosen index is strictly smaller (ties resolve to the first maximum). -/
theorem rustMaxByIdx_first_spec {α F : Type} [LinearOrder F] (v : α → F)
    (cmp : α → α → Ordering) (S : α → Prop)
    (hc : ∀ a c, S a → S c → (cmp a c = .gt ↔ v c ≤ v a))
    (l : List α) (hl : l ≠ []) (hS : ∀ y ∈ l, S y) :
    ∃ i x, rustMaxByIdx cmp l = some (i, x) ∧ l.get? i = some x ∧ S x ∧
      (∀ y ∈ l, v y ≤ v x) ∧
      (∀ j y, l.get? j = some y → j < i → v y < v x) := by
  match l with
  | [] => exact absurd rfl hl
  | x :: xs =>
    have hSx : S x := hS x (List.mem_cons_self _ _)
    have hSxs : ∀ y ∈ xs, S y := fun y hy => hS y (List.mem_cons_of_mem _ hy)
    obtain ⟨rS, rmem, racc, rall, rfirst, rstrict, _, _⟩ :=
      rustMaxFold_spec_first v cmp S hc xs 1 (0, x) hSx hSxs Nat.zero_lt_one
    refine ⟨(rustMaxFold cmp xs 1 (0, x)).1, (rustMaxFold cmp xs 1 (0, x)).2,
      by simp [rustMaxByIdx], ?_, rS, ?_, ?_⟩
    · rcases rmem with h | ⟨d, hd, hi⟩
      · rw [h]
        rfl
      · rw [hi, Nat.add_comm]
        simpa using hd
    · intro y hy
      rcases List.mem_cons.mp hy with rfl | hy
      · exact racc
      · exact rall y hy
    · intro j y hj hlt
      cases j with
      | zero =>
        simp at hj
        subst hj
        exact rstrict (by omega)
      | succ d =>
        simp only [List.get?_cons_succ] at hj
        exact rfirst d y hj (by omega)

namespace Mcts

variable {B M : Type} {F : Type}

/-- The `max_select_idx` on a non-empty child list returns a child with maximal
select value, together with its index; later children never strictly exceed
it (equal maxima resolve to the last). -/
theorem max_select_idx_spec [LinearOrderedField F] (lnf sq : F → F)
    (cs : List (M × MCTree B M)) (p : Nat) (hl : cs ≠ []) :
    ∃ i c, max_select_idx (F := F) lnf sq cs p = some (i, c) ∧
      cs.get? i = some c ∧
      (∀ x ∈ cs, MCTree.select_value lnf sq x.2 p ≤ MCTree.select_value lnf sq c.2 p) ∧
      (∀ j x, cs.get? j = some x → i < j →
        MCTree.select_value lnf sq x.2 p < MCTree.select_value lnf sq c.2 p) := by
  obtain ⟨i, c, h1, h2, _, h4, h5⟩ :=
    rustMaxByIdx_last_spec (fun c => MCTree.select_value lnf sq c.2 p)
      (cmp_select_value (F := F) lnf sq p) (fun _ => True)
      (fun a c _ _ => by
        simp only [cmp_select_value]
        exact fcmp_eq_gt_iff _ _) cs hl (fun _ _ => trivial)
  exact ⟨i, c, h1, h2, h4, h5⟩

/-- The `max_play_idx` on a non-empty child list returns a child with maximal
play value, together with its index; later children never strictly exceed it
(equal maxima resolve to the last). -/
theorem max_play_idx_spec [LinearOrderedField F]
    (cs : List (M × MCTree B M)) (hl : cs ≠ []) :
    ∃ i c, max_play_idx (F := F) cs = some (i, c) ∧
      cs.get? i = some c ∧
      (∀ x ∈ cs, MCTree.play_value (F := F) x.2 ≤ MCTree.play_value (F := F) c.2) ∧
      (∀ j x, cs.get? j = some x → i < j →
        MCTree.play_value (F := F) x.2 < MCTree.play_value (F := F) c.2) := by
  obtain ⟨i, c, h1, h2, _, h4, h5⟩ :=
    rustMaxByIdx_last_spec (fun c => MCTree.play_value (F := F) c.2)
      (cmp_play_value (F := F)) (fun _ => True)
      (fun a c _ _ => by
        simp only [cmp_play_value]
        exact fcmp_eq_gt_iff _ _) cs hl (fun _ _ => trivial)
  exact ⟨i, c, h1, h2, h4, h5⟩

end Mcts

/-- C2 counterexample: for the `mcts.rs` node with one win in one playout,
`MCTree::play_value` returns `0`, while the claimed formula
`(wins + 0.5 * draws) / playouts` (with the zero draws that `SimResult`
records) gives `1`. -/
theorem c2_counterexample :
    Mcts.MCTree.play_value (F := ℚ)
        (Mcts.MCTree.mk (0 : Nat) 1 1 ([] : List (Nat × Mcts.MCTree Nat Nat))) = 0 ∧
    (((Mcts.MCTree.mk (0 : Nat) 1 1 ([] : List (Nat × Mcts.MCTree Nat Nat))).wins : ℚ)
        + (1 / 2) * 0) /
      ((Mcts.MCTree.mk (0 : Nat) 1 1 ([] : List (Nat × Mcts.MCTree Nat Nat))).playouts : ℚ)
      = 1 ∧
    (0 : ℚ) ≠ 1 := by
  refine ⟨?_, ?_, by norm_num⟩
  · norm_num [Mcts.MCTree.play_value, Mcts.MCTree.playouts, Mcts.MCTree.wins]
  · norm_num [Mcts.MCTree.playouts, Mcts.MCTree.wins]

/-- C2 (amended): `Node::play_value` in `chess_player.rs` does satisfy the
claim: it is `(wins + 0.5 * draws) / playouts` for positive playout counts
and exactly `0.5` at zero.  `MCTree::play_value` in `mcts.rs` instead
returns `1 - wins / playouts` (the win rate seen by the opponent; `MCTree`
records no draws) for positive playout counts, and `0.5` at zero.
`TreeNode::play_value` in `stonefish.rs` applies the turn-relative claimed
formula for positive playout counts but has no zero-playout guard: at zero
playouts it divides zero by zero (a NaN, `none` in the model) instead of
returning `0.5`. -/
theorem c2_amended {B M F : Type} [LinearOrderedField F] (R : Rules B M)
    (n : CP.Node B M) (t : Mcts.MCTree B M) (u : SF.TreeNode B M) :
    (n.playouts = 0 → CP.Node.play_value (F := F) n = 1 / 2) ∧
    (n.playouts ≠ 0 → CP.Node.play_value (F := F) n =
      ((n.wins : F) + (n.draws : F) * (1 / 2)) / (n.playouts : F)) ∧
    (t.playouts = 0 → Mcts.MCTree.play_value (F := F) t = 1 / 2) ∧
    (t.playouts ≠ 0 → Mcts.MCTree.play_value (F := F) t =
      1 - (t.wins : F) / (t.playouts : F)) ∧
    (u.playouts ≠ 0 → SF.TreeNode.play_value? R (F := F) u =
      some (((((match R.turn u.board with
        | Player.white => u.playout_result.white_wins
        | Player.black => u.playout_result.black_wins) : Nat) : F)
          + (u.playout_result.draws : F) / 2) / (u.playouts : F))) ∧
    (u.playouts = 0 → SF.TreeNode.play_value? R (F := F) u = none) := by
  refine ⟨?_, ?_, ?_, ?_, ?_, ?_⟩
  · intro h
    simp [CP.Node.play_value, h]
  · intro h
    simp [CP.Node.play_value, CP.Node.value, h]
  · intro h
    simp [Mcts.MCTree.play_value, h]
  · intro h
    simp [Mcts.MCTree.play_value, h]
  · intro h
    have hcast : ((u.playouts : F)) ≠ 0 := Nat.cast_ne_zero.mpr h
    simp only [SF.TreeNode.play_value?, fdiv?, SF.TreeNode.playouts] at *
    rw [if_neg hcast]
  · intro h
    have hcast : ((u.playout_result.count : F)) = 0 := by
      simp [SF.TreeNode.playouts] at h
      simp [h]
    simp only [SF.TreeNode.play_value?, fdiv?]
    rw [if_pos hcast]

/-- Witness for the C2 amended theorem: the `mcts.rs` node with one win in
two playouts has a positive playout count and play value `1 - 1 / 2`. -/
theorem c2_amended_witness :
    (Mcts.MCTree.mk (0 : Nat) 1 2 ([] : List (Nat × Mcts.MCTree Nat Nat))).playouts ≠ 0 ∧
    Mcts.MCTree.play_value (F := ℚ)
      (Mcts.MCTree.mk (0 : Nat) 1 2 ([] : List (Nat × Mcts.MCTree Nat Nat))) =
      1 - ((Mcts.MCTree.mk (0 : Nat) 1 2 ([] : List (Nat × Mcts.MCTree Nat Nat))).wins : ℚ) /
        ((Mcts.MCTree.mk (0 : Nat) 1 2 ([] : List (Nat × Mcts.MCTree Nat Nat))).playouts : ℚ) :=
  ⟨by decide,
    (c2_amended (F := ℚ) toy ⟨0, 1, 0, 0, 0⟩
      (Mcts.MCTree.mk (0 : Nat) 1 2 ([] : List (Nat × Mcts.MCTree Nat Nat)))
      (SF.TreeNode.mk 0 SF.PlayoutResult.new_empty [])).2.2.2.1 (by decide)⟩

/-- C3 counterexample: at the node with zero wins in one playout and parent
playout count `2`, `MCTree::select_value` (with the real logarithm and square
root) differs from the claimed `play_value + sqrt 2 * sqrt (ln 2 / 1)`: the
source multiplies by the literal `1.4142`, which is strictly below
`sqrt 2`. -/
theorem c3_counterexample :
    Mcts.MCTree.select_value (F := ℝ) Real.log Real.sqrt
        (Mcts.MCTree.mk (0 : Nat) 0 1 ([] : List (Nat × Mcts.MCTree Nat Nat))) 2 ≠
      Mcts.MCTree.play_value (F := ℝ)
          (Mcts.MCTree.mk (0 : Nat) 0 1 ([] : List (Nat × Mcts.MCTree Nat Nat))) +
        Real.sqrt 2 * Real.sqrt (Real.log 2 / 1) := by
  have hval : Mcts.MCTree.select_value (F := ℝ) Real.log Real.sqrt
      (Mcts.MCTree.mk (0 : Nat) 0 1 ([] : List (Nat × Mcts.MCTree Nat Nat))) 2 =
      Mcts.MCTree.play_value (F := ℝ)
          (Mcts.MCTree.mk (0 : Nat) 0 1 ([] : List (Nat × Mcts.MCTree Nat Nat))) +
        (14142 / 10000 : ℝ) * Real.sqrt (Real.log 2 / 1) := by
    norm_num [Mcts.MCTree.select_value, Mcts.MCTree.playouts]
  rw [hval]
  intro h
  have hlog : 0 < Real.log 2 := Real.log_pos one_lt_two
  have hsq : 0 < Real.sqrt (Real.log 2 / 1) := Real.sqrt_pos.mpr (by simpa using hlog)
  have h2 : (14142 / 10000 : ℝ) * Real.sqrt (Real.log 2 / 1) =
      Real.sqrt 2 * Real.sqrt (Real.log 2 / 1) := add_left_cancel h
  have h3 : (14142 / 10000 : ℝ) = Real.sqrt 2 := mul_right_cancel₀ (ne_of_gt hsq) h2
  have h4 : ((14142 / 10000 : ℝ)) ^ 2 = 2 := by
    rw [h3]
    exact Real.sq_sqrt (by norm_num)
  norm_num at h4

/-- C3 (amended): in `mcts.rs` and `chess_player.rs` the select value is the
play value plus an exploration term that is the sentinel `1.0` at zero
playouts and otherwise `1.4142 * sqrt(ln(parent_playouts) / playouts)` — the
constant is the `f32` literal `1.4142`, not `sqrt 2`.  In `stonefish.rs` the
constant is `1.41421356`, there is no zero-playout sentinel, and both terms
divide by the playout count, so at zero playouts the value is non-finite
(`none`); for positive playout counts the claimed formula shape holds. -/
theorem c3_amended {B M F : Type} [LinearOrderedField F] (R : Rules B M)
    (lnf sq : F → F) (t : Mcts.MCTree B M) (n : CP.Node B M)
    (u : SF.TreeNode B M) (p : Nat) :
    (t.playouts ≠ 0 → Mcts.MCTree.select_value lnf sq t p =
      Mcts.MCTree.play_value t +
        (14142 / 10000 : F) * sq (lnf (p : F) / (t.playouts : F))) ∧
    (t.playouts = 0 → Mcts.MCTree.select_value lnf sq t p =
      Mcts.MCTree.play_value t + 1) ∧
    (n.playouts ≠ 0 → CP.Node.mcts_value lnf sq n p =
      CP.Node.play_value n +
        (14142 / 10000 : F) * sq (lnf (p : F) / (n.playouts : F))) ∧
    (n.playouts = 0 → CP.Node.mcts_value lnf sq n p =
      CP.Node.play_value n + 1) ∧
    (u.playouts ≠ 0 → SF.TreeNode.select_value? R lnf sq u p =
      some ((((match R.turn u.board with
        | Player.white => u.playout_result.white_wins
        | Player.black => u.playout_result.black_wins) : Nat) : F)
          / (u.playouts : F) + (u.playout_result.draws : F) / 2 / (u.playouts : F) +
        (141421356 / 100000000 : F) * sq (lnf (p : F) / (u.playouts : F)))) ∧
    (u.playouts = 0 → SF.TreeNode.select_value? R lnf sq u p = none) := by
  refine ⟨?_, ?_, ?_, ?_, ?_, ?_⟩
  · intro h
    simp [Mcts.MCTree.select_value, h]
  · intro h
    simp [Mcts.MCTree.select_value, h]
  · intro h
    simp [CP.Node.mcts_value, h]
  · intro h
    simp [CP.Node.mcts_value, h]
  · intro h
    have hcast : ((u.playouts : F)) ≠ 0 := Nat.cast_ne_zero.mpr h
    simp only [SF.TreeNode.select_value?, fdiv?, SF.TreeNode.playouts] at *
    rw [if_neg hcast, if_neg hcast]
    ring_nf
  · intro h
    have hcast : ((u.playout_result.count : F)) = 0 := by
      simp [SF.TreeNode.playouts] at h
      simp [h]
    simp only [SF.TreeNode.select_value?, fdiv?]
    rw [if_pos hcast]

/-- Witness for the C3 amended theorem: the `mcts.rs` node with one playout
has a positive playout count and its select value carries the `1.4142`
exploration factor. -/
theorem c3_amended_witness :
    (Mcts.MCTree.mk (0 : Nat) 0 1 ([] : List (Nat × Mcts.MCTree Nat Nat))).playouts ≠ 0 ∧
    Mcts.MCTree.select_value (F := ℚ) (fun _ => 0) (fun _ => 0)
        (Mcts.MCTree.mk (0 : Nat) 0 1 ([] : List (Nat × Mcts.MCTree Nat Nat))) 2 =
      Mcts.MCTree.play_value (F := ℚ)
          (Mcts.MCTree.mk (0 : Nat) 0 1 ([] : List (Nat × Mcts.MCTree Nat Nat))) +
        (14142 / 10000 : ℚ) * (fun (_ : ℚ) => (0 : ℚ))
          ((fun (_ : ℚ) => (0 : ℚ)) (((2 : Nat) : ℚ)) /
            (((Mcts.MCTree.mk (0 : Nat) 0 1
              ([] : List (Nat × Mcts.MCTree Nat Nat))).playouts : ℚ))) :=
  ⟨by decide,
    (c3_amended (F := ℚ) toy (fun _ => 0) (fun _ => 0)
      (Mcts.MCTree.mk (0 : Nat) 0 1 ([] : List (Nat × Mcts.MCTree Nat Nat)))
      ⟨0, 1, 0, 0, 0⟩ (SF.TreeNode.mk 0 SF.PlayoutResult.new_empty []) 2).1
      (by decide)⟩

/-- C5 counterexample: a root with two children of equal play value; the
`mcts.rs` `best_move` returns the edge labelled `2` — the last-encountered
child, not the first-encountered one (labelled `1`). -/
theorem c5_counterexample :
    (Mcts.MCTree.best_move (F := ℚ)
      (Mcts.MCTree.mk (0 : Nat) 0 0
        [((1 : Nat), Mcts.MCTree.new 1), (2, Mcts.MCTree.new 2)])).map Prod.fst
      = some 2 ∧
    Mcts.MCTree.play_value (F := ℚ) (Mcts.MCTree.new (1 : Nat) : Mcts.MCTree Nat Nat) =
      Mcts.MCTree.play_value (F := ℚ) (Mcts.MCTree.new (2 : Nat) : Mcts.MCTree Nat Nat) ∧
    (2 : Nat) ≠ 1 := by
  have hpv : Mcts.MCTree.play_value (F := ℚ) (Mcts.MCTree.new (1 : Nat) : Mcts.MCTree Nat Nat) =
      Mcts.MCTree.play_value (F := ℚ) (Mcts.MCTree.new (2 : Nat) : Mcts.MCTree Nat Nat) := by
    norm_num [Mcts.MCTree.play_value, Mcts.MCTree.new, Mcts.MCTree.playouts]
  have hcmp : Mcts.cmp_play_value (F := ℚ)
      ((1 : Nat), (Mcts.MCTree.new 1 : Mcts.MCTree Nat Nat)) (2, Mcts.MCTree.new 2) = .eq := by
    norm_num [Mcts.cmp_play_value, fcmp, Mcts.MCTree.play_value, Mcts.MCTree.new,
      Mcts.MCTree.playouts]
  refine ⟨?_, hpv, by decide⟩
  simp [Mcts.MCTree.best_move, Mcts.max_play_idx, rustMaxByIdx, rustMaxFold,
    Mcts.MCTree.children, hcmp]

/-- C5 (amended): `MCTree::best_move` in `mcts.rs` returns a child edge of
maximal play value, but equal maxima resolve to the last-encountered child
(Rust `max_by`), and an empty root yields `None` rather than a `NoLegalMoves`
error value.  `TreeNode::best_move` in `stonefish.rs` (under the strict
`Less`-or-`Greater` comparator, with all child play values finite) returns a
child edge of maximal play value with equal maxima resolved to the
first-encountered child, and panics (`unwrap` of `None`, modelled as `none`)
when the root has no children. -/
theorem c5_amended {B M F : Type} [LinearOrderedField F] (R : Rules B M)
    (t : Mcts.MCTree B M) (u : SF.TreeNode B M) :
    (t.children ≠ [] →
      ∃ i c, Mcts.max_play_idx (F := F) t.children = some (i, c) ∧
        Mcts.MCTree.best_move (F := F) t = some c ∧
        t.children.get? i = some c ∧
        (∀ x ∈ t.children,
          Mcts.MCTree.play_value (F := F) x.2 ≤ Mcts.MCTree.play_value (F := F) c.2) ∧
        (∀ j x, t.children.get? j = some x → i < j →
          Mcts.MCTree.play_value (F := F) x.2 < Mcts.MCTree.play_value (F := F) c.2)) ∧
    (t.children = [] → Mcts.MCTree.best_move (F := F) t = none) ∧
    (u.moves ≠ [] →
      (∀ c ∈ u.moves, (SF.TreeNode.play_value? R (F := F) c.2).isSome = true) →
      ∃ i c, SF.TreeNode.best_move? R (F := F) u = some c ∧
        u.moves.get? i = some c ∧
        (∀ x ∈ u.moves,
          (SF.TreeNode.play_value? R (F := F) x.2).getD 0 ≤
            (SF.TreeNode.play_value? R (F := F) c.2).getD 0) ∧
        (∀ j x, u.moves.get? j = some x → j < i →
          (SF.TreeNode.play_value? R (F := F) x.2).getD 0 <
            (SF.TreeNode.play_value? R (F := F) c.2).getD 0)) ∧
    (u.moves = [] → SF.TreeNode.best_move? R (F := F) u = none) := by
  refine ⟨?_, ?_, ?_, ?_⟩
  · intro h
    obtain ⟨i, c, h1, h2, h3, h4⟩ := Mcts.max_play_idx_spec (F := F) t.children h
    refine ⟨i, c, h1, ?_, h2, h3, h4⟩
    simp [Mcts.MCTree.best_move, h1]
  · intro h
    simp [Mcts.MCTree.best_move, Mcts.max_play_idx, rustMaxByIdx, h]
  · intro h hfin
    obtain ⟨i, c, h1, h2, _, h4, h5⟩ :=
      rustMaxByIdx_first_spec (fun c => (SF.TreeNode.play_value? R (F := F) c.2).getD 0)
        (fun a c =>
          if SF.optLt (SF.TreeNode.play_value? R (F := F) a.2)
              (SF.TreeNode.play_value? R (F := F) c.2) then .lt else .gt)
        (fun c => (SF.TreeNode.play_value? R (F := F) c.2).isSome = true)
        (fun a c ha hc => by
          obtain ⟨va, hva⟩ := Option.isSome_iff_exists.mp ha
          obtain ⟨vc, hvc⟩ := Option.isSome_iff_exists.mp hc
          dsimp only
          rw [hva, hvc]
          by_cases hlt : va < vc
          · simp [SF.optLt, hlt]
          · simp [SF.optLt, hlt, not_lt.mp hlt])
        u.moves h hfin
    refine ⟨i, c, ?_, h2, h4, h5⟩
    simp [SF.TreeNode.best_move?, h1]
  · intro h
    simp [SF.TreeNode.best_move?, rustMaxByIdx, h]

/-- Witness for the C5 amended theorem: a concrete one-child root on which
`best_move` returns the maximal (and only) edge. -/
theorem c5_amended_witness :
    (Mcts.MCTree.mk (0 : Nat) 0 0 [((1 : Nat), Mcts.MCTree.new 1)]).children ≠ [] ∧
    (∃ i c, Mcts.max_play_idx (F := ℚ)
        (Mcts.MCTree.mk (0 : Nat) 0 0 [((1 : Nat), Mcts.MCTree.new 1)]).children
        = some (i, c) ∧
      Mcts.MCTree.best_move (F := ℚ)
        (Mcts.MCTree.mk (0 : Nat) 0 0 [((1 : Nat), Mcts.MCTree.new 1)]) = some c ∧
      (Mcts.MCTree.mk (0 : Nat) 0 0 [((1 : Nat), Mcts.MCTree.new 1)]).children.get? i
        = some c ∧
      (∀ x ∈ (Mcts.MCTree.mk (0 : Nat) 0 0 [((1 : Nat), Mcts.MCTree.new 1)]).children,
        Mcts.MCTree.play_value (F := ℚ) x.2 ≤ Mcts.MCTree.play_value (F := ℚ) c.2) ∧
      (∀ j x, (Mcts.MCTree.mk (0 : Nat) 0 0
          [((1 : Nat), Mcts.MCTree.new 1)]).children.get? j = some x → i < j →
        Mcts.MCTree.play_value (F := ℚ) x.2 < Mcts.MCTree.play_value (F := ℚ) c.2)) :=
  ⟨by simp [Mcts.MCTree.children],
    (c5_amended (F := ℚ) toy
      (Mcts.MCTree.mk (0 : Nat) 0 0 [((1 : Nat), Mcts.MCTree.new 1)])
      (SF.TreeNode.mk 0 SF.PlayoutResult.new_empty [])).1
      (by simp [Mcts.MCTree.children])⟩

/-- C1: on a non-leaf node, `MCTree::select` picks the child edge with the
maximal select value computed against this node's own playout count, recurses
into it, inverts the returned result exactly once (the wins become the
losses, the playout count unchanged; `SimResult` records no draws), merges
the inverted result into this node's statistics and returns that same
inverted result to its caller. -/
theorem c1_select_internal {B M F : Type} [LinearOrderedField F] (R : Rules B M)
    (lnf sq : F → F) (rnd : Nat → Nat) (po : Nat → Mcts.PlayEnd)
    (fuel k : Nat) (t : Mcts.MCTree B M) (hleaf : ¬ t.is_leaf) :
    ∃ i c, Mcts.max_select_idx (F := F) lnf sq t.children t.playouts = some (i, c) ∧
      t.children.get? i = some c ∧
      (∀ x ∈ t.children, Mcts.MCTree.select_value lnf sq x.2 t.playouts ≤
        Mcts.MCTree.select_value lnf sq c.2 t.playouts) ∧
      ∀ c2 r k2, Mcts.MCTree.select R lnf sq rnd po fuel c.2 k = .ok (c2, r, k2) →
        Mcts.MCTree.select R lnf sq rnd po (fuel + 1) t k =
          .ok ((t.setChild i (c.1, c2)).update r.invert, r.invert, k2) ∧
        r.invert.wins = r.playouts - r.wins ∧
        r.invert.playouts = r.playouts ∧
        ((t.setChild i (c.1, c2)).update r.invert).wins = t.wins + r.invert.wins ∧
        ((t.setChild i (c.1, c2)).update r.invert).playouts =
          t.playouts + r.invert.playouts := by
  have hne : t.children ≠ [] := by
    intro hnil
    exact hleaf (by simp [Mcts.MCTree.is_leaf, hnil])
  obtain ⟨i, c, h1, h2, h3, _⟩ := Mcts.max_select_idx_spec lnf sq t.children t.playouts hne
  refine ⟨i, c, h1, h2, h3, ?_⟩
  intro c2 r k2 hsel
  have hstep : Mcts.MCTree.select R lnf sq rnd po (fuel + 1) t k =
      match Mcts.max_select_idx (F := F) lnf sq t.children t.playouts with
      | none => Mcts.Exec.stuck
      | some (i, c) =>
        match Mcts.MCTree.select R lnf sq rnd po fuel c.2 k with
        | .ok (c2, r2, k2) =>
            .ok ((t.setChild i (c.1, c2)).update r2.invert, r2.invert, k2)
        | .stuck => .stuck
        | .out => .out := by
    simp only [Mcts.MCTree.select]
    rw [if_neg hleaf]
  refine ⟨?_, rfl, rfl, ?_, ?_⟩
  · rw [hstep, h1]
    simp only [hsel]
  · simp [Mcts.MCTree.update, Mcts.MCTree.setChild, Mcts.MCTree.wins]
  · simp [Mcts.MCTree.update, Mcts.MCTree.setChild, Mcts.MCTree.playouts]

/-- Witness for C1: a concrete two-child internal node. -/
theorem c1_select_internal_witness :
    ¬ (Mcts.MCTree.mk (0 : Nat) 1 5
        [((1 : Nat), Mcts.MCTree.new 1), (2, Mcts.MCTree.new 2)]).is_leaf ∧
    (∃ i c, Mcts.max_select_idx (F := ℚ) (fun _ => 0) (fun _ => 0)
        (Mcts.MCTree.mk (0 : Nat) 1 5
          [((1 : Nat), Mcts.MCTree.new 1), (2, Mcts.MCTree.new 2)]).children
        (Mcts.MCTree.mk (0 : Nat) 1 5
          [((1 : Nat), Mcts.MCTree.new 1), (2, Mcts.MCTree.new 2)]).playouts
        = some (i, c) ∧
      (Mcts.MCTree.mk (0 : Nat) 1 5
        [((1 : Nat), Mcts.MCTree.new 1), (2, Mcts.MCTree.new 2)]).children.get? i
        = some c ∧
      (∀ x ∈ (Mcts.MCTree.mk (0 : Nat) 1 5
          [((1 : Nat), Mcts.MCTree.new 1), (2, Mcts.MCTree.new 2)]).children,
        Mcts.MCTree.select_value (fun (_ : ℚ) => (0 : ℚ)) (fun _ => 0) x.2
            (Mcts.MCTree.mk (0 : Nat) 1 5
              [((1 : Nat), Mcts.MCTree.new 1), (2, Mcts.MCTree.new 2)]).playouts ≤
          Mcts.MCTree.select_value (fun _ => 0) (fun _ => 0) c.2
            (Mcts.MCTree.mk (0 : Nat) 1 5
              [((1 : Nat), Mcts.MCTree.new 1), (2, Mcts.MCTree.new 2)]).playouts) ∧
      ∀ c2 r k2, Mcts.MCTree.select (F := ℚ) toy (fun _ => 0) (fun _ => 0) (fun _ => 0)
          (fun _ => Mcts.PlayEnd.win) 1 c.2 0 = .ok (c2, r, k2) →
        Mcts.MCTree.select (F := ℚ) toy (fun _ => 0) (fun _ => 0) (fun _ => 0)
            (fun _ => Mcts.PlayEnd.win) 2
            (Mcts.MCTree.mk (0 : Nat) 1 5
              [((1 : Nat), Mcts.MCTree.new 1), (2, Mcts.MCTree.new 2)]) 0 =
          .ok (((Mcts.MCTree.mk (0 : Nat) 1 5
              [((1 : Nat), Mcts.MCTree.new 1), (2, Mcts.MCTree.new 2)]).setChild i
                (c.1, c2)).update r.invert, r.invert, k2) ∧
        r.invert.wins = r.playouts - r.wins ∧
        r.invert.playouts = r.playouts ∧
        (((Mcts.MCTree.mk (0 : Nat) 1 5
            [((1 : Nat), Mcts.MCTree.new 1), (2, Mcts.MCTree.new 2)]).setChild i
              (c.1, c2)).update r.invert).wins =
          (Mcts.MCTree.mk (0 : Nat) 1 5
            [((1 : Nat), Mcts.MCTree.new 1), (2, Mcts.MCTree.new 2)]).wins +
            r.invert.wins ∧
        (((Mcts.MCTree.mk (0 : Nat) 1 5
            [((1 : Nat), Mcts.MCTree.new 1), (2, Mcts.MCTree.new 2)]).setChild i
              (c.1, c2)).update r.invert).playouts =
          (Mcts.MCTree.mk (0 : Nat) 1 5
            [((1 : Nat), Mcts.MCTree.new 1), (2, Mcts.MCTree.new 2)]).playouts +
            r.invert.playouts) :=
  ⟨by decide,
    c1_select_internal (F := ℚ) toy (fun _ => 0) (fun _ => 0) (fun _ => 0)
      (fun _ => Mcts.PlayEnd.win) 1 0
      (Mcts.MCTree.mk (0 : Nat) 1 5
        [((1 : Nat), Mcts.MCTree.new 1), (2, Mcts.MCTree.new 2)]) (by decide)⟩

namespace Mcts

variable {B M : Type} {F : Type}

/-- The `get_result` only reports remaining moves on a non-empty move list. -/
theorem get_result_moves_ne_nil (R : Rules B M) (b : B) (pl : Player)
    (coin : Bool) (ms : List M) (h : get_result R b pl coin = .moves ms) :
    ms ≠ [] := by
  simp only [get_result] at h
  split at h
  · cases h
  · split at h
    · split at h
      · split at h
        · cases h
        · cases h
      · cases h
    · rename_i hlen
      injection h with h3
      intro hnil
      exact hlen (by simp [h3, hnil])

/-- The simulation loop of `expand` never hits the `gen_range` panic on a
non-empty child list: the list length is preserved across iterations. -/
theorem simLoop_ne_none (po : Nat → PlayEnd) (rnd : Nat → Nat) :
    ∀ (n : Nat) (cs : List (M × MCTree B M)) (k : Nat) (acc : SimResult),
      cs.length ≠ 0 → simLoop po rnd n cs k acc ≠ none := by
  intro n
  induction n with
  | zero =>
    intro cs k acc _
    simp [simLoop]
  | succ n ih =>
    intro cs k acc hlen
    unfold simLoop
    rw [dif_neg hlen]
    exact ih _ _ _ (by simpa using hlen)

/-- The `expand` never panics. -/
theorem expand_ne_stuck (R : Rules B M) (rnd : Nat → Nat) (po : Nat → PlayEnd)
    (t : MCTree B M) (k : Nat) : t.expand R rnd po k ≠ .stuck := by
  unfold MCTree.expand
  cases hres : get_result R t.state (t.player R) true with
  | ended e => simp
  | moves ms =>
    have hne : ms ≠ [] := get_result_moves_ne_nil R t.state (t.player R) true ms hres
    have hlen : (t.children ++
        ms.map (fun m => (m, MCTree.new (R.apply_move t.state m)))).length ≠ 0 := by
      simp only [List.length_append, List.length_map]
      intro hcon
      exact hne (List.length_eq_zero.mp (by omega))
    cases hloop : simLoop po rnd PARALLEL_SIMULATIONS
        (t.children ++ ms.map (fun m => (m, MCTree.new (R.apply_move t.state m))))
        k ⟨0, 0⟩ with
    | none => exact absurd hloop (simLoop_ne_none po rnd _ _ _ _ hlen)
    | some x =>
      obtain ⟨cs2, result, k2⟩ := x
      simp [hloop]

end Mcts

/-- C10: whenever `MCTree::select` takes the non-leaf branch, `is_leaf()`
being false means the child list is non-empty, so `max_select_mut` returns a
maximum and its `unwrap` cannot fail; `select` never reaches the modelled
panic outcome for any tree, oracle tapes or fuel. -/
theorem c10_select_no_panic {B M F : Type} [LinearOrderedField F] (R : Rules B M)
    (lnf sq : F → F) (rnd : Nat → Nat) (po : Nat → Mcts.PlayEnd)
    (fuel : Nat) (t : Mcts.MCTree B M) (k : Nat) :
    (¬ t.is_leaf →
      (Mcts.max_select_idx (F := F) lnf sq t.children t.playouts).isSome = true) ∧
    Mcts.MCTree.select R lnf sq rnd po fuel t k ≠ .stuck := by
  constructor
  · intro hleaf
    have hne : t.children ≠ [] := by
      intro hnil
      exact hleaf (by simp [Mcts.MCTree.is_leaf, hnil])
    obtain ⟨i, c, h1, _⟩ := Mcts.max_select_idx_spec lnf sq t.children t.playouts hne
    simp [h1]
  · induction fuel generalizing t k with
    | zero => simp [Mcts.MCTree.select]
    | succ fuel ih =>
      by_cases hleaf : t.is_leaf
      · simp only [Mcts.MCTree.select]
        rw [if_pos hleaf]
        exact Mcts.expand_ne_stuck R rnd po t k
      · have hne : t.children ≠ [] := by
          intro hnil
          exact hleaf (by simp [Mcts.MCTree.is_leaf, hnil])
        obtain ⟨i, c, h1, _⟩ := Mcts.max_select_idx_spec (F := F) lnf sq t.children t.playouts hne
        simp only [Mcts.MCTree.select]
        rw [if_neg hleaf, h1]
        cases hsel : Mcts.MCTree.select R lnf sq rnd po fuel c.2 k with
        | ok x =>
          obtain ⟨c2, r, k2⟩ := x
          simp [hsel]
        | stuck => exact absurd hsel (ih c.2 k)
        | out => simp [hsel]

/-- Witness for C10: the non-leaf hypothesis discharged on a concrete
two-child node. -/
theorem c10_select_no_panic_witness :
    ¬ (Mcts.MCTree.mk (0 : Nat) 1 5
        [((1 : Nat), Mcts.MCTree.new 1), (2, Mcts.MCTree.new 2)]).is_leaf ∧
    (Mcts.max_select_idx (F := ℚ) (fun _ => 0) (fun _ => 0)
      (Mcts.MCTree.mk (0 : Nat) 1 5
        [((1 : Nat), Mcts.MCTree.new 1), (2, Mcts.MCTree.new 2)]).children
      (Mcts.MCTree.mk (0 : Nat) 1 5
        [((1 : Nat), Mcts.MCTree.new 1), (2, Mcts.MCTree.new 2)]).playouts).isSome
      = true :=
  ⟨by decide,
    (c10_select_no_panic (F := ℚ) toy (fun _ => 0) (fun _ => 0) (fun _ => 0)
      (fun _ => Mcts.PlayEnd.win) 1
      (Mcts.MCTree.mk (0 : Nat) 1 5
        [((1 : Nat), Mcts.MCTree.new 1), (2, Mcts.MCTree.new 2)]) 0).1
      (by decide)⟩

namespace Mcts

variable {B M : Type} {F : Type}

/-- Unfolding of the statistics invariant at a node. -/
theorem Inv_iff {s : B} {w p : Nat} {cs : List (M × MCTree B M)} :
    MCTree.Inv (.mk s w p cs) ↔ w ≤ p ∧ ∀ c ∈ cs, MCTree.Inv c.2 := by
  constructor
  · intro h
    cases h with
    | mk _ _ _ _ hw hcs => exact ⟨hw, hcs⟩
  · intro h
    exact MCTree.Inv.mk _ _ _ _ h.1 h.2

/-- A fresh node satisfies the invariant. -/
theorem inv_new (b : B) : (MCTree.new b : MCTree B M).Inv :=
  Inv_iff.mpr ⟨le_refl 0, by intro c hc; cases hc⟩

/-- An inverted result never has more wins than playouts. -/
theorem invert_wins_le (r : SimResult) : r.invert.wins ≤ r.invert.playouts :=
  Nat.sub_le _ _

/-- Addition preserves the wins-bounded-by-playouts property. -/
theorem add_wins_le {a c : SimResult} (ha : a.wins ≤ a.playouts)
    (hc : c.wins ≤ c.playouts) : (a.add c).wins ≤ (a.add c).playouts :=
  Nat.add_le_add ha hc

/-- The `countWins` counts at most `n` wins out of `n` playouts. -/
theorem countWins_le (po : Nat → PlayEnd) (k : Nat) :
    ∀ n, countWins po k n ≤ n := by
  intro n
  induction n with
  | zero => simp [countWins]
  | succ n ih =>
    unfold countWins
    split <;> omega

/-- The `update` preserves the invariant for a wins-bounded result. -/
theorem inv_update {t : MCTree B M} {r : SimResult} (ht : t.Inv)
    (hr : r.wins ≤ r.playouts) : (t.update r).Inv := by
  cases t with
  | mk s w p cs =>
    rw [Inv_iff] at ht
    show (MCTree.mk s (w + r.wins) (p + r.playouts) cs).Inv
    exact Inv_iff.mpr ⟨Nat.add_le_add ht.1 hr, ht.2⟩

/-- The `simulate` preserves the invariant and returns a wins-bounded result. -/
theorem inv_simulate {t : MCTree B M} (po : Nat → PlayEnd) (k : Nat)
    (ht : t.Inv) :
    (t.simulate po k).1.Inv ∧
    (t.simulate po k).2.1.wins ≤ (t.simulate po k).2.1.playouts := by
  refine ⟨inv_update ht ?_, ?_⟩ <;>
    exact countWins_le po k PARALLEL_PLAYOUTS

/-- The expansion simulation loop preserves the invariant of every child and
accumulates a wins-bounded result. -/
theorem inv_simLoop (po : Nat → PlayEnd) (rnd : Nat → Nat) :
    ∀ (n : Nat) (cs : List (M × MCTree B M)) (k : Nat) (acc : SimResult),
      (∀ c ∈ cs, MCTree.Inv c.2) → acc.wins ≤ acc.playouts →
      ∀ cs2 acc2 k2, simLoop po rnd n cs k acc = some (cs2, acc2, k2) →
        (∀ c ∈ cs2, MCTree.Inv c.2) ∧ acc2.wins ≤ acc2.playouts := by
  intro n
  induction n with
  | zero =>
    intro cs k acc hcs hacc cs2 acc2 k2 h
    simp [simLoop] at h
    obtain ⟨h1, h2, _⟩ := h
    subst h1
    subst h2
    exact ⟨hcs, hacc⟩
  | succ n ih =>
    intro cs k acc hcs hacc cs2 acc2 k2 h
    unfold simLoop at h
    by_cases hlen : cs.length = 0
    · rw [dif_pos hlen] at h
      cases h
    · rw [dif_neg hlen] at h
      set i := rnd k % cs.length with hi
      set c := cs.get ⟨i, Nat.mod_lt _ (Nat.pos_of_ne_zero hlen)⟩ with hc
      refine ih _ _ _ ?_ ?_ _ _ _ h
      · intro z hz
        rcases List.mem_or_eq_of_mem_set hz with hz2 | hz2
        · exact hcs z hz2
        · subst hz2
          refine (inv_simulate po (k + 1) (hcs c ?_)).1
          rw [hc]
          exact List.get_mem cs _ _
      · exact add_wins_le hacc (invert_wins_le _)

/-- The `expand` preserves the invariant and returns a wins-bounded result. -/
theorem inv_expand (R : Rules B M) (rnd : Nat → Nat) (po : Nat → PlayEnd)
    {t : MCTree B M} {k : Nat} (ht : t.Inv) :
    ∀ t2 r k2, t.expand R rnd po k = .ok (t2, r, k2) →
      t2.Inv ∧ r.wins ≤ r.playouts := by
  intro t2 r k2 h
  unfold MCTree.expand at h
  cases hres : get_result R t.state (t.player R) true with
  | ended e =>
    rw [hres] at h
    simp only [MCTree.simulate] at h
    injection h with h3
    injection h3 with h4 h5
    injection h5 with h6 h7
    subst h4
    subst h6
    exact ⟨inv_update ht (countWins_le po k _), countWins_le po k _⟩
  | moves ms =>
    rw [hres] at h
    simp only at h
    cases hloop : simLoop po rnd PARALLEL_SIMULATIONS
        (t.children ++ ms.map (fun m => (m, MCTree.new (R.apply_move t.state m))))
        k ⟨0, 0⟩ with
    | none =>
      rw [hloop] at h
      cases h
    | some x =>
      obtain ⟨cs2, result, k3⟩ := x
      rw [hloop] at h
      injection h with h3
      injection h3 with h4 h5
      injection h5 with h6 h7
      subst h4
      subst h6
      have hall : ∀ c ∈ t.children ++
          ms.map (fun m => (m, MCTree.new (R.apply_move t.state m))),
          MCTree.Inv c.2 := by
        intro c hcmem
        rcases List.mem_append.mp hcmem with hl | hr
        · cases t with
          | mk s w p cs => exact (Inv_iff.mp ht).2 c hl
        · obtain ⟨m, _, hm⟩ := List.mem_map.mp hr
          rw [← hm]
          exact inv_new _
      obtain ⟨hcs2, hres2⟩ :=
        inv_simLoop po rnd PARALLEL_SIMULATIONS _ k ⟨0, 0⟩ hall (le_refl 0) _ _ _ hloop
      refine ⟨inv_update ?_ hres2, hres2⟩
      cases t with
      | mk s w p cs =>
        exact Inv_iff.mpr ⟨(Inv_iff.mp ht).1, hcs2⟩

/-- The `select` preserves the invariant and returns a wins-bounded result. -/
theorem inv_select [LinearOrderedField F] (R : Rules B M) (lnf sq : F → F)
    (rnd : Nat → Nat) (po : Nat → PlayEnd) :
    ∀ (fuel : Nat) (t : MCTree B M) (k : Nat), t.Inv →
      ∀ t2 r k2, MCTree.select R lnf sq rnd po fuel t k = .ok (t2, r, k2) →
        t2.Inv ∧ r.wins ≤ r.playouts := by
  intro fuel
  induction fuel with
  | zero =>
    intro t k _ t2 r k2 h
    simp [MCTree.select] at h
  | succ fuel ih =>
    intro t k ht t2 r k2 h
    simp only [MCTree.select] at h
    by_cases hleaf : t.is_leaf
    · rw [if_pos hleaf] at h
      exact inv_expand R rnd po ht t2 r k2 h
    · rw [if_neg hleaf] at h
      have hne : t.children ≠ [] := by
        intro hnil
        exact hleaf (by simp [MCTree.is_leaf, hnil])
      obtain ⟨i, c, h1, h2, _⟩ := max_select_idx_spec (F := F) lnf sq t.children t.playouts hne
      simp only [h1] at h
      cases hsel : MCTree.select R lnf sq rnd po fuel c.2 k with
      | ok x =>
        obtain ⟨c2, rc, k3⟩ := x
        simp only [hsel] at h
        injection h with h3
        injection h3 with h4 h5
        injection h5 with h6 h7
        subst h4
        subst h6
        have hcInv : MCTree.Inv c.2 := by
          cases t with
          | mk s w p cs => exact (Inv_iff.mp ht).2 c (List.get?_mem h2)
        obtain ⟨hc2, _⟩ := ih c.2 k hcInv c2 rc k3 hsel
        refine ⟨inv_update ?_ (invert_wins_le rc), invert_wins_le rc⟩
        cases t with
        | mk s w p cs =>
          refine Inv_iff.mpr ⟨(Inv_iff.mp ht).1, ?_⟩
          intro z hz
          rcases List.mem_or_eq_of_mem_set hz with hz2 | hz2
          · exact (Inv_iff.mp ht).2 z hz2
          · subst hz2
            exact hc2
      | stuck =>
        simp only [hsel] at h
        cases h
      | out =>
        simp only [hsel] at h
        cases h

end Mcts

/-- C6: every statistics-touching operation of `mcts.rs` preserves the
invariant that recorded wins never exceed recorded playouts, tree-wide
(`SimResult` records no draws, so the spec bound `wins + draws ≤ playouts`
reads `wins ≤ playouts` here): `update` with a wins-bounded result,
`simulate`, `expand` and `select` all keep every node of the tree within the
bound, and the results they return are themselves wins-bounded. -/
theorem c6_statistics_invariant {B M F : Type} [LinearOrderedField F]
    (R : Rules B M) (lnf sq : F → F) (rnd : Nat → Nat) (po : Nat → Mcts.PlayEnd) :
    (∀ (t : Mcts.MCTree B M) (r : Mcts.SimResult), t.Inv →
      r.wins ≤ r.playouts → (t.update r).Inv) ∧
    (∀ (t : Mcts.MCTree B M) (k : Nat), t.Inv →
      (t.simulate po k).1.Inv ∧
      (t.simulate po k).2.1.wins ≤ (t.simulate po k).2.1.playouts) ∧
    (∀ (t : Mcts.MCTree B M) (k : Nat), t.Inv →
      ∀ t2 r k2, t.expand R rnd po k = .ok (t2, r, k2) →
        t2.Inv ∧ r.wins ≤ r.playouts) ∧
    (∀ (fuel : Nat) (t : Mcts.MCTree B M) (k : Nat), t.Inv →
      ∀ t2 r k2, Mcts.MCTree.select R lnf sq rnd po fuel t k = .ok (t2, r, k2) →
        t2.Inv ∧ r.wins ≤ r.playouts) :=
  ⟨fun _ _ ht hr => Mcts.inv_update ht hr,
    fun _ k ht => Mcts.inv_simulate po k ht,
    fun _ _ ht => Mcts.inv_expand R rnd po ht,
    fun fuel t k ht => Mcts.inv_select R lnf sq rnd po fuel t k ht⟩

/-- Witness for C6: a fresh root satisfies the invariant, and after an
`update` with the wins-bounded result of five playouts with three wins it
still does. -/
theorem c6_statistics_invariant_witness :
    (Mcts.MCTree.new (0 : Nat) : Mcts.MCTree Nat Nat).Inv ∧
    ((3 : Nat) ≤ (5 : Nat)) ∧
    ((Mcts.MCTree.new (0 : Nat) : Mcts.MCTree Nat Nat).update ⟨3, 5⟩).Inv :=
  ⟨Mcts.inv_new 0, by decide,
    (c6_statistics_invariant (F := ℚ) toy (fun _ => 0) (fun _ => 0) (fun _ => 0)
      (fun _ => Mcts.PlayEnd.win)).1 (Mcts.MCTree.new 0) ⟨3, 5⟩
      (Mcts.inv_new 0) (by decide)⟩

namespace Mcts

variable {B M : Type} {F : Type}

/-- Each iteration of the expansion simulation loop adds exactly
`PARALLEL_PLAYOUTS` playouts to the accumulator. -/
theorem simLoop_playouts (po : Nat → PlayEnd) (rnd : Nat → Nat) :
    ∀ (n : Nat) (cs : List (M × MCTree B M)) (k : Nat) (acc : SimResult)
      (cs2 : List (M × MCTree B M)) (acc2 : SimResult) (k2 : Nat),
      simLoop po rnd n cs k acc = some (cs2, acc2, k2) →
      acc2.playouts = acc.playouts + n * PARALLEL_PLAYOUTS := by
  intro n
  induction n with
  | zero =>
    intro cs k acc cs2 acc2 k2 h
    simp [simLoop] at h
    rw [← h.2.1]
    omega
  | succ n ih =>
    intro cs k acc cs2 acc2 k2 h
    unfold simLoop at h
    by_cases hlen : cs.length = 0
    · rw [dif_pos hlen] at h
      cases h
    · rw [dif_neg hlen] at h
      have h2 := ih _ _ _ _ _ _ h
      simp only [SimResult.add, SimResult.invert, MCTree.simulate] at h2
      rw [h2]
      simp [Nat.succ_mul]
      omega

/-- The `expand` adds its returned result to the node, and the result carries
exactly `PARALLEL_SIMULATIONS * PARALLEL_PLAYOUTS` playouts when the state
still has moves (the leaf required expansion), and exactly
`PARALLEL_PLAYOUTS` when the state is terminal. -/
theorem expand_playouts (R : Rules B M) (rnd : Nat → Nat) (po : Nat → PlayEnd)
    (t : MCTree B M) (k : Nat) :
    ∀ t2 r k2, t.expand R rnd po k = .ok (t2, r, k2) →
      t2.playouts = t.playouts + r.playouts ∧
      ((∃ ms, get_result R t.state (t.player R) true = .moves ms) →
        r.playouts = PARALLEL_SIMULATIONS * PARALLEL_PLAYOUTS) ∧
      ((∀ ms, get_result R t.state (t.player R) true ≠ PlayResult.moves ms) →
        r.playouts = PARALLEL_PLAYOUTS) := by
  intro t2 r k2 h
  unfold MCTree.expand at h
  cases hres : get_result R t.state (t.player R) true with
  | ended e =>
    rw [hres] at h
    simp only [MCTree.simulate] at h
    injection h with h3
    injection h3 with h4 h5
    injection h5 with h6 h7
    subst h4
    subst h6
    refine ⟨rfl, ?_, fun _ => rfl⟩
    intro ⟨ms, hms⟩
    cases hms
  | moves ms =>
    rw [hres] at h
    simp only at h
    cases hloop : simLoop po rnd PARALLEL_SIMULATIONS
        (t.children ++ ms.map (fun m => (m, MCTree.new (R.apply_move t.state m))))
        k ⟨0, 0⟩ with
    | none =>
      rw [hloop] at h
      cases h
    | some x =>
      obtain ⟨cs2, result, k3⟩ := x
      rw [hloop] at h
      injection h with h3
      injection h3 with h4 h5
      injection h5 with h6 h7
      subst h4
      subst h6
      have hacc := simLoop_playouts po rnd PARALLEL_SIMULATIONS _ _ _ _ _ _ hloop
      simp only [Nat.zero_add] at hacc
      refine ⟨rfl, fun _ => by omega, ?_⟩
      intro hnone
      exact absurd rfl (hnone ms)

end Mcts

/-- C7: the root playout count never decreases across `MCTree::select` — the
new count is the old count plus the returned result's playouts — and an
iteration whose selection path ends at a leaf whose state still has moves (a
leaf requiring expansion) adds exactly one expansion batch of
`PARALLEL_SIMULATIONS * PARALLEL_PLAYOUTS = 25` playouts (an iteration
ending at a terminal leaf adds one simulation batch of
`PARALLEL_PLAYOUTS = 5`). -/
theorem c7_root_playouts {B M F : Type} [LinearOrderedField F] (R : Rules B M)
    (lnf sq : F → F) (rnd : Nat → Nat) (po : Nat → Mcts.PlayEnd) :
    ∀ (fuel : Nat) (t : Mcts.MCTree B M) (k : Nat) t2 r k2,
      Mcts.MCTree.select R lnf sq rnd po fuel t k = .ok (t2, r, k2) →
      t2.playouts = t.playouts + r.playouts ∧
      t.playouts ≤ t2.playouts ∧
      ∀ l, Mcts.MCTree.descendLeaf (F := F) lnf sq fuel t = some l →
        ((∃ ms, Mcts.get_result R l.state (l.player R) true = .moves ms) →
          r.playouts = Mcts.PARALLEL_SIMULATIONS * Mcts.PARALLEL_PLAYOUTS) ∧
        ((∀ ms, Mcts.get_result R l.state (l.player R) true ≠ Mcts.PlayResult.moves ms) →
          r.playouts = Mcts.PARALLEL_PLAYOUTS) := by
  intro fuel
  induction fuel with
  | zero =>
    intro t k t2 r k2 h
    simp [Mcts.MCTree.select] at h
  | succ fuel ih =>
    intro t k t2 r k2 h
    simp only [Mcts.MCTree.select] at h
    by_cases hleaf : t.is_leaf
    · rw [if_pos hleaf] at h
      obtain ⟨h1, h2, h3⟩ := Mcts.expand_playouts R rnd po t k t2 r k2 h
      refine ⟨h1, by omega, ?_⟩
      intro l hl
      simp only [Mcts.MCTree.descendLeaf] at hl
      rw [if_pos hleaf] at hl
      injection hl with hl2
      subst hl2
      exact ⟨h2, h3⟩
    · rw [if_neg hleaf] at h
      have hne : t.children ≠ [] := by
        intro hnil
        exact hleaf (by simp [Mcts.MCTree.is_leaf, hnil])
      obtain ⟨i, c, h1, h2, _⟩ :=
        Mcts.max_select_idx_spec (F := F) lnf sq t.children t.playouts hne
      simp only [h1] at h
      cases hsel : Mcts.MCTree.select R lnf sq rnd po fuel c.2 k with
      | ok x =>
        obtain ⟨c2, rc, k3⟩ := x
        simp only [hsel] at h
        injection h with h3
        injection h3 with h4 h5
        injection h5 with h6 h7
        subst h4
        subst h6
        obtain ⟨ih1, ih2, ih3⟩ := ih c.2 k c2 rc k3 hsel
        refine ⟨rfl, by simp [Mcts.MCTree.update, Mcts.MCTree.setChild,
          Mcts.MCTree.playouts], ?_⟩
        intro l hl
        simp only [Mcts.MCTree.descendLeaf] at hl
        rw [if_neg hleaf] at hl
        simp only [h1] at hl
        obtain ⟨ihA, ihB⟩ := ih3 l hl
        constructor
        · intro hms
          have := ihA hms
          simp [Mcts.SimResult.invert, this]
        · intro hms
          have := ihB hms
          simp [Mcts.SimResult.invert, this]
      | stuck =>
        simp only [hsel] at h
        cases h
      | out =>
        simp only [hsel] at h
        cases h

/-- Witness for C7: one `select` call on a fresh root for the toy start
position expands the root and adds exactly 25 playouts to it. -/
theorem c7_root_playouts_witness :
    Mcts.MCTree.select (F := ℚ) toy (fun _ => 0) (fun _ => 0) (fun _ => 0)
        (fun _ => Mcts.PlayEnd.win) 1 (Mcts.MCTree.new 0) 0 =
      .ok (Mcts.MCTree.mk (0 : Nat) 0 25
          [((1 : Nat), Mcts.MCTree.mk 1 25 25 ([] : List (Nat × Mcts.MCTree Nat Nat))),
            (2, Mcts.MCTree.new 2)],
        Mcts.SimResult.mk 0 25, 30) ∧
    (Mcts.MCTree.mk (0 : Nat) 0 25
        [((1 : Nat), Mcts.MCTree.mk 1 25 25 ([] : List (Nat × Mcts.MCTree Nat Nat))),
          (2, Mcts.MCTree.new 2)]).playouts =
      (Mcts.MCTree.new (0 : Nat) : Mcts.MCTree Nat Nat).playouts +
        (Mcts.SimResult.mk 0 25).playouts ∧
    (Mcts.MCTree.new (0 : Nat) : Mcts.MCTree Nat Nat).playouts ≤
      (Mcts.MCTree.mk (0 : Nat) 0 25
        [((1 : Nat), Mcts.MCTree.mk 1 25 25 ([] : List (Nat × Mcts.MCTree Nat Nat))),
          (2, Mcts.MCTree.new 2)]).playouts ∧
    ∀ l, Mcts.MCTree.descendLeaf (F := ℚ) (fun _ => 0) (fun _ => 0) 1
        (Mcts.MCTree.new 0) = some l →
      ((∃ ms, Mcts.get_result toy l.state (l.player toy) true = .moves ms) →
        (Mcts.SimResult.mk 0 25).playouts =
          Mcts.PARALLEL_SIMULATIONS * Mcts.PARALLEL_PLAYOUTS) ∧
      ((∀ ms, Mcts.get_result toy l.state (l.player toy) true ≠
          Mcts.PlayResult.moves ms) →
        (Mcts.SimResult.mk 0 25).playouts = Mcts.PARALLEL_PLAYOUTS) :=
  have hsel : Mcts.MCTree.select (F := ℚ) toy (fun _ => 0) (fun _ => 0) (fun _ => 0)
      (fun _ => Mcts.PlayEnd.win) 1 (Mcts.MCTree.new 0) 0 =
      .ok (Mcts.MCTree.mk (0 : Nat) 0 25
          [((1 : Nat), Mcts.MCTree.mk 1 25 25 ([] : List (Nat × Mcts.MCTree Nat Nat))),
            (2, Mcts.MCTree.new 2)],
        Mcts.SimResult.mk 0 25, 30) := by rfl
  ⟨hsel, c7_root_playouts (F := ℚ) toy (fun _ => 0) (fun _ => 0) (fun _ => 0)
    (fun _ => Mcts.PlayEnd.win) 1 (Mcts.MCTree.new 0) 0 _ _ _ hsel⟩

/-- The arg-max loop of `TreeNode::playout` returns either the initial best
move or an element of the remaining list. -/
theorem SF.bestPlayoutMove_holds {B M : Type} (R : Rules B M) (rnd : Nat → Nat)
    (board : B) (S : M → Prop) :
    ∀ (rest : List M) (k : Nat) (best : M × Nat),
      S best.1 → (∀ m ∈ rest, S m) → S (SF.bestPlayoutMove R rnd board rest k best) := by
  intro rest
  induction rest with
  | nil =>
    intro k best hb _
    exact hb
  | cons m ms ih =>
    intro k best hb hrest
    simp only [SF.bestPlayoutMove]
    split
    · exact ih _ _ (hrest m (List.mem_cons_self _ _))
        (fun z hz => hrest z (List.mem_cons_of_mem _ hz))
    · exact ih _ _ hb (fun z hz => hrest z (List.mem_cons_of_mem _ hz))

/-- C4 counterexample: on the toy 50-move-rule position, `mcts.rs`'s
`PlayResult::get_result` classifies the drawn terminal as a win when the
coin says so and as a loss otherwise — a random win or loss, never a draw
(`PlayEnd` cannot even express one). -/
theorem c4_counterexample :
    Mcts.get_result toy 3 Player.white true = .ended Mcts.PlayEnd.win ∧
    Mcts.get_result toy 3 Player.white false = .ended Mcts.PlayEnd.loss ∧
    50 ≤ toy.rule50 3 :=
  ⟨rfl, rfl, by decide⟩

/-- C4 (amended): every playout loop runs to a true terminal and classifies
checkmate as a win for the side not to move; the playouts of
`chess_player.rs` and `stonefish.rs` classify stalemate and the 50-move rule
as draws, but the playouts of `mcts.rs` (`PlayResult::get_result`) turn such
drawn terminals into a uniformly random win or loss (`get_draw_result`),
since `SimResult`/`PlayEnd` cannot represent draws.  Non-terminal positions
continue the loop with one applied move. -/
theorem c4_amended {B M : Type} (R : Rules B M) (b : B) (pl : Player)
    (coin : Bool) (rnd : Nat → Nat) (fuel k : Nat) :
    (50 ≤ R.rule50 b →
      Mcts.get_result R b pl coin =
        .ended (if coin then Mcts.PlayEnd.win else Mcts.PlayEnd.loss)) ∧
    (R.rule50 b < 50 → (R.generate_moves b).length = 0 → R.checkmate b = true →
      Mcts.get_result R b pl coin =
        .ended (if pl = R.turn b then Mcts.PlayEnd.loss else Mcts.PlayEnd.win)) ∧
    (R.rule50 b < 50 → (R.generate_moves b).length = 0 → R.checkmate b = false →
      Mcts.get_result R b pl coin =
        .ended (if coin then Mcts.PlayEnd.win else Mcts.PlayEnd.loss)) ∧
    (R.rule50 b < 50 → (R.generate_moves b).length ≠ 0 →
      Mcts.get_result R b pl coin = .moves (R.generate_moves b)) ∧
    (50 ≤ R.rule50 b →
      CP.playout R rnd pl (fuel + 1) b k = some .draw) ∧
    (R.rule50 b < 50 → (R.generate_moves b).length = 0 → R.stalemate b = true →
      CP.playout R rnd pl (fuel + 1) b k = some .draw) ∧
    (R.rule50 b < 50 → (R.generate_moves b).length = 0 → R.stalemate b = false →
      R.checkmate b = true →
      CP.playout R rnd pl (fuel + 1) b k =
        some (if R.turn b = pl then CP.Playout.loss else CP.Playout.win)) ∧
    (R.rule50 b < 50 → (R.generate_moves b).length = 0 → R.stalemate b = false →
      R.checkmate b = false →
      CP.playout R rnd pl (fuel + 1) b k = some .draw) ∧
    (R.rule50 b < 50 → (R.generate_moves b).length ≠ 0 →
      ∃ mv ∈ R.generate_moves b,
        CP.playout R rnd pl (fuel + 1) b k =
          CP.playout R rnd pl fuel (R.apply_move b mv) (k + 1)) ∧
    (R.checkmate b = true →
      SF.TreeNode.playout R rnd (fuel + 1) b k =
        some (match R.turn b with
          | Player.white => SF.PlayoutResult.new 0 1 0
          | Player.black => SF.PlayoutResult.new 1 0 0)) ∧
    (R.checkmate b = false → (50 ≤ R.rule50 b ∨ R.stalemate b = true) →
      SF.TreeNode.playout R rnd (fuel + 1) b k =
        some (SF.PlayoutResult.new 0 0 1)) ∧
    (R.checkmate b = false → R.rule50 b < 50 → R.stalemate b = false →
      (R.generate_moves b).length ≠ 0 →
      ∃ mv ∈ R.generate_moves b,
        SF.TreeNode.playout R rnd (fuel + 1) b k =
          SF.TreeNode.playout R rnd fuel (R.apply_move b mv)
            (k + (R.generate_moves b).length)) := by
  refine ⟨?_, ?_, ?_, ?_, ?_, ?_, ?_, ?_, ?_, ?_, ?_, ?_⟩
  · intro h
    simp [Mcts.get_result, h, Mcts.get_draw_result]
  · intro h1 h2 h3
    simp only [Mcts.get_result, if_neg (Nat.not_le.mpr h1), h2, if_pos rfl, h3, if_true]
    split <;> rfl
  · intro h1 h2 h3
    simp [Mcts.get_result, Nat.not_le.mpr h1, h2, h3, Mcts.get_draw_result]
  · intro h1 h2
    simp [Mcts.get_result, Nat.not_le.mpr h1, h2]
  · intro h
    simp only [CP.playout]
    rw [if_pos h]
  · intro h1 h2 h3
    simp only [CP.playout]
    rw [if_neg (Nat.not_le.mpr h1), dif_pos h2, if_pos h3]
  · intro h1 h2 h3 h4
    simp only [CP.playout]
    rw [if_neg (Nat.not_le.mpr h1), dif_pos h2, if_neg (by simp [h3]), if_pos h4]
    split <;> rfl
  · intro h1 h2 h3 h4
    simp only [CP.playout]
    rw [if_neg (Nat.not_le.mpr h1), dif_pos h2, if_neg (by simp [h3]),
      if_neg (by simp [h4])]
  · intro h1 h2
    refine ⟨(R.generate_moves b).get
      ⟨rnd k % (R.generate_moves b).length,
        Nat.mod_lt _ (Nat.pos_of_ne_zero h2)⟩, List.get_mem _ _ _, ?_⟩
    simp only [CP.playout]
    rw [if_neg (Nat.not_le.mpr h1), dif_neg h2]
  · intro h
    simp only [SF.TreeNode.playout]
    rw [if_pos h]
  · intro h1 h2
    simp only [SF.TreeNode.playout]
    rw [if_neg (by simp [h1]), if_pos h2]
  · intro h1 h2 h3 h4
    refine ⟨SF.bestPlayoutMove R rnd b ((R.generate_moves b).drop 1) (k + 1)
      ((R.generate_moves b).get ⟨0, Nat.pos_of_ne_zero h4⟩,
        SF.TreeNode.playout_value R rnd k b
          ((R.generate_moves b).get ⟨0, Nat.pos_of_ne_zero h4⟩)), ?_, ?_⟩
    · exact SF.bestPlayoutMove_holds R rnd b (· ∈ R.generate_moves b) _ _ _
        (List.get_mem _ _ _) (fun z hz => List.mem_of_mem_drop hz)
    · simp only [SF.TreeNode.playout]
      rw [if_neg (by simp [h1]), if_neg (by
        intro hcon
        rcases hcon with hcon | hcon
        · omega
        · simp [h3] at hcon), dif_neg h4]

/-- Witness for the C4 amended theorem: the toy checkmate position is
classified by the `chess_player.rs` playout as a win for the side not to
move. -/
theorem c4_amended_witness :
    toy.rule50 1 < 50 ∧ (toy.generate_moves 1).length = 0 ∧
    toy.stalemate 1 = false ∧ toy.checkmate 1 = true ∧
    CP.playout toy (fun _ => 0) Player.white 1 1 0 =
      some (if toy.turn 1 = Player.white then CP.Playout.loss else CP.Playout.win) :=
  ⟨by decide, by decide, by decide, by decide,
    (c4_amended toy 1 Player.white true (fun _ => 0) 0 0).2.2.2.2.2.2.1
      (by decide) (by decide) (by decide) (by decide)⟩

namespace SF

variable {B M : Type}

/-- The pop loop finds a node exactly when an edge with the given label is
in the list, and the node it returns is the child of the first matching edge
of the scanned list. -/
theorem findPopLoop_some [DecidableEq M] (m : M) :
    ∀ (l : List (M × TreeNode B M)), (∃ c ∈ l, c.1 = m) →
      ∃ c ∈ l, c.1 = m ∧ findPopLoop m l = some c.2 := by
  intro l
  induction l with
  | nil =>
    intro ⟨c, hc, _⟩
    cases hc
  | cons x xs ih =>
    intro ⟨c, hc, hm⟩
    by_cases hx : x.1 = m
    · exact ⟨x, List.mem_cons_self _ _, hx, by simp [findPopLoop, hx]⟩
    · have hcx : c ∈ xs := by
        rcases List.mem_cons.mp hc with rfl | h
        · exact absurd hm hx
        · exact h
      obtain ⟨c2, hc2, hm2, hfind⟩ := ih ⟨c, hcx, hm⟩
      exact ⟨c2, List.mem_cons_of_mem _ hc2, hm2, by simp [findPopLoop, hx, hfind]⟩

/-- The pop loop misses exactly when no edge carries the label. -/
theorem findPopLoop_none [DecidableEq M] (m : M) :
    ∀ (l : List (M × TreeNode B M)), (∀ c ∈ l, c.1 ≠ m) →
      findPopLoop m l = none := by
  intro l
  induction l with
  | nil =>
    intro _
    rfl
  | cons x xs ih =>
    intro hall
    simp only [findPopLoop]
    rw [if_neg (hall x (List.mem_cons_self _ _))]
    exact ih (fun c hc => hall c (List.mem_cons_of_mem _ hc))

end SF

/-- C8: when the played move labels a root edge of a coherent tree (every
root edge's child board is the board after the edge's move — which is how
`TreeNode::expand` builds children, restated here as a conjunct),
`apply_root_move` succeeds, and the whole engine state collapses to that
edge's child: the new root's board is `apply_move(old_root.board, m)` and
every sibling subtree is discarded. -/
theorem c8_transplant {B M : Type} [DecidableEq M] (R : Rules B M)
    (s : SF.StoneFish B M) (m : M)
    (hcoh : ∀ c ∈ s.root.moves, c.2.board = R.apply_move s.root.board c.1)
    (hmem : ∃ c ∈ s.root.moves, c.1 = m) :
    (∀ t : SF.TreeNode B M, ∀ c ∈ (SF.TreeNode.expand R t).moves,
      c.2.board = R.apply_move t.board c.1) ∧
    ∃ c ∈ s.root.moves, c.1 = m ∧
      s.apply_root_move m = (true, ⟨s.player, c.2⟩) ∧
      c.2.board = R.apply_move s.root.board m := by
  constructor
  · intro t c hc
    obtain ⟨mv, _, hmv⟩ := List.mem_map.mp hc
    rw [← hmv]
    rfl
  · have hmem2 : ∃ c ∈ s.root.moves.reverse, c.1 = m := by
      obtain ⟨c, hc, hm⟩ := hmem
      exact ⟨c, List.mem_reverse.mpr hc, hm⟩
    obtain ⟨c, hc, hm, hfind⟩ := SF.findPopLoop_some m s.root.moves.reverse hmem2
    have hcmem : c ∈ s.root.moves := List.mem_reverse.mp hc
    refine ⟨c, hcmem, hm, ?_, ?_⟩
    · simp [SF.StoneFish.apply_root_move, hfind]
    · rw [hcoh c hcmem, hm]

/-- Witness for C8: transplanting the toy root with move `1` promotes the
matching child. -/
theorem c8_transplant_witness :
    (∀ c ∈ (SF.TreeNode.mk (0 : Nat) (SF.PlayoutResult.new 1 1 0)
        [((1 : Nat), SF.TreeNode.new 1), (2, SF.TreeNode.new 2)]).moves,
      c.2.board = toy.apply_move 0 c.1) ∧
    (∃ c ∈ (SF.TreeNode.mk (0 : Nat) (SF.PlayoutResult.new 1 1 0)
        [((1 : Nat), SF.TreeNode.new 1), (2, SF.TreeNode.new 2)]).moves, c.1 = 1) ∧
    ∃ c ∈ (SF.TreeNode.mk (0 : Nat) (SF.PlayoutResult.new 1 1 0)
        [((1 : Nat), SF.TreeNode.new 1), (2, SF.TreeNode.new 2)]).moves, c.1 = 1 ∧
      SF.StoneFish.apply_root_move
        ⟨Player.white, SF.TreeNode.mk (0 : Nat) (SF.PlayoutResult.new 1 1 0)
          [((1 : Nat), SF.TreeNode.new 1), (2, SF.TreeNode.new 2)]⟩ 1 =
        (true, ⟨Player.white, c.2⟩) ∧
      c.2.board = toy.apply_move 0 1 := by
  have hcoh : ∀ c ∈ (SF.TreeNode.mk (0 : Nat) (SF.PlayoutResult.new 1 1 0)
      [((1 : Nat), SF.TreeNode.new 1), (2, SF.TreeNode.new 2)]).moves,
      c.2.board = toy.apply_move 0 c.1 := by
    intro c hc
    rcases List.mem_cons.mp hc with rfl | hc2
    · rfl
    · rcases List.mem_cons.mp hc2 with rfl | hc3
      · rfl
      · cases hc3
  have hmem : ∃ c ∈ (SF.TreeNode.mk (0 : Nat) (SF.PlayoutResult.new 1 1 0)
      [((1 : Nat), SF.TreeNode.new 1), (2, SF.TreeNode.new 2)]).moves, c.1 = 1 :=
    ⟨(1, SF.TreeNode.new 1), List.mem_cons_self _ _, rfl⟩
  have h := c8_transplant toy
    ⟨Player.white, SF.TreeNode.mk (0 : Nat) (SF.PlayoutResult.new 1 1 0)
      [((1 : Nat), SF.TreeNode.new 1), (2, SF.TreeNode.new 2)]⟩ 1 hcoh hmem
  exact ⟨hcoh, hmem, h.2⟩

/-- C9: whenever the authoritative board is unreachable from the tracked
root — it differs from the root board, and its recorded last move (if any)
labels no root edge — `StoneFish::update_root` fails with an explicit error
(a `panic!` in the source) and never returns a tree, so the desync is never
silently masked by a reset. -/
theorem c9_desync_fails {B M : Type} [DecidableEq B] [DecidableEq M]
    (R : Rules B M) (s : SF.StoneFish B M) (board : B)
    (hne : board ≠ s.root.board)
    (hnochild : ∀ mv, R.last_move board = some mv → ∀ c ∈ s.root.moves, c.1 ≠ mv) :
    (∃ e, SF.StoneFish.update_root R s board = .error e) ∧
    ∀ s2, SF.StoneFish.update_root R s board ≠ .ok s2 := by
  have hres : ∃ e, SF.StoneFish.update_root R s board = .error e := by
    unfold SF.StoneFish.update_root
    rw [if_neg hne]
    cases hlast : R.last_move board with
    | none => exact ⟨.noLastMove, rfl⟩
    | some mv =>
      have hnone : SF.findPopLoop mv s.root.moves.reverse = none :=
        SF.findPopLoop_none mv _
          (fun c hc => hnochild mv hlast c (List.mem_reverse.mp hc))
      refine ⟨.lastMoveNotChild, ?_⟩
      simp [SF.StoneFish.apply_root_move, hnone]
  obtain ⟨e, he⟩ := hres
  refine ⟨⟨e, he⟩, ?_⟩
  intro s2 hcon
  rw [he] at hcon
  cases hcon

/-- Witness for C9: the toy board `4` differs from the tracked root `0` and
its last move `9` labels no root edge, so `update_root` fails. -/
theorem c9_desync_fails_witness :
    ((4 : Nat) ≠ (SF.TreeNode.mk (0 : Nat) (SF.PlayoutResult.new 1 1 0)
      [((1 : Nat), SF.TreeNode.new 1), (2, SF.TreeNode.new 2)]).board) ∧
    (∃ e, SF.StoneFish.update_root toy
      ⟨Player.white, SF.TreeNode.mk (0 : Nat) (SF.PlayoutResult.new 1 1 0)
        [((1 : Nat), SF.TreeNode.new 1), (2, SF.TreeNode.new 2)]⟩ 4 = .error e) ∧
    ∀ s2, SF.StoneFish.update_root toy
      ⟨Player.white, SF.TreeNode.mk (0 : Nat) (SF.PlayoutResult.new 1 1 0)
        [((1 : Nat), SF.TreeNode.new 1), (2, SF.TreeNode.new 2)]⟩ 4 ≠ .ok s2 := by
  have hnochild : ∀ mv, toy.last_move 4 = some mv →
      ∀ c ∈ (SF.TreeNode.mk (0 : Nat) (SF.PlayoutResult.new 1 1 0)
        [((1 : Nat), SF.TreeNode.new 1), (2, SF.TreeNode.new 2)]).moves, c.1 ≠ mv := by
    intro mv hmv c hc
    have hmv9 : mv = 9 := by
      simp [toy] at hmv
      omega
    subst hmv9
    rcases List.mem_cons.mp hc with rfl | hc2
    · decide
    · rcases List.mem_cons.mp hc2 with rfl | hc3
      · decide
      · cases hc3
  have h := c9_desync_fails toy
    ⟨Player.white, SF.TreeNode.mk (0 : Nat) (SF.PlayoutResult.new 1 1 0)
      [((1 : Nat), SF.TreeNode.new 1), (2, SF.TreeNode.new 2)]⟩ 4
    (by decide) hnochild
  exact ⟨by decide, h.1, h.2⟩
